import Mathlib

/-!
Verification of the adoption-workflow core of the pet-adoption backend.

The state of the system is the content of the two persistent collections
(`pets` and `applications`) plus a fresh-id counter standing in for the
database's id generation.  Each controller from
`controllers/applicationController.ts` and `controllers/petController.ts`
is translated into a pure function `State → Result × State`; the HTTP
response taken on each early-return branch is recorded by a dedicated
result constructor (the original status code and message are noted in
comments).  The two separate `new Date()` calls inside `reviewApplication`
are modelled by two distinct timestamp parameters `now` and `now2`.
-/

namespace PetAdoption

/-- The `Pet.status` enumeration from the Mongoose schema (`models/Pet.ts`). -/
inductive PetStatus
  | available
  | pending
  | adopted
deriving DecidableEq, Repr

/-- The `Application.status` enumeration from the Mongoose schema
(`models/Application.ts`). -/
inductive AppStatus
  | pending
  | approved
  | rejected
deriving DecidableEq, Repr

/-- The `species` enumeration of the pet schema. -/
inductive Species
  | dog
  | cat
  | bird
  | rabbit
  | other
deriving DecidableEq, Repr

/-- The `gender` enumeration of the pet schema. -/
inductive Gender
  | male
  | female
deriving DecidableEq, Repr

/-- The `size` enumeration of the pet schema. -/
inductive PetSize
  | small
  | medium
  | large
deriving DecidableEq, Repr

/-- The `livingSpace` enumeration of the application schema. -/
inductive LivingSpace
  | apartment
  | house
  | farm
deriving DecidableEq, Repr

/-- A pet document (`IPet` in `types/index.ts`).  Document ids and account
ids are modelled as naturals. -/
structure Pet where
  id : Nat
  name : String
  species : Species
  breed : String
  age : Nat
  gender : Gender
  size : Option PetSize
  color : Option String
  description : String
  photo : Option String
  status : PetStatus
  vaccinated : Bool
  neutered : Bool
  addedBy : Nat
deriving DecidableEq, Repr

/-- An application document (`IApplication` in `types/index.ts`).
`reviewedAt` is a timestamp modelled as a natural. -/
structure Application where
  id : Nat
  pet : Nat
  user : Nat
  status : AppStatus
  reason : String
  experience : String
  livingSpace : LivingSpace
  hasOtherPets : Bool
  adminNotes : Option String
  reviewedBy : Option Nat
  reviewedAt : Option Nat
deriving DecidableEq, Repr

/-- The persistent store: the two collections, plus the id that the store
will assign to the next inserted application document. -/
structure State where
  pets : List Pet
  apps : List Application
  nextId : Nat
deriving DecidableEq, Repr

/-- Mirrors `Pet.findById`: first document with the given id. -/
def findPet (st : State) (petId : Nat) : Option Pet :=
  st.pets.find? (fun p => decide (p.id = petId))

/-- Mirrors `Application.findById`. -/
def findApp (st : State) (appId : Nat) : Option Application :=
  st.apps.find? (fun a => decide (a.id = appId))

/-- The status of the pet with the given id, when it exists. -/
def petStatus (st : State) (petId : Nat) : Option PetStatus :=
  (findPet st petId).map Pet.status

/-- Mirrors `Pet.findByIdAndUpdate(petId, ...)` restricted to the status field: update the status of the
documents matching the id (at most one in a well-formed store). -/
def setPetStatus (pets : List Pet) (petId : Nat) (s : PetStatus) : List Pet :=
  pets.map (fun p => if p.id = petId then { p with status := s } else p)

/-- Mirrors `document.save()` on an application: write the updated document back
over the stored document(s) with the same id. -/
def saveApp (apps : List Application) (a : Application) : List Application :=
  apps.map (fun x => if x.id = a.id then a else x)

/-- Mirrors `pet.save()`: write the updated pet document back over the stored
document(s) with the same id. -/
def savePet (pets : List Pet) (p : Pet) : List Pet :=
  pets.map (fun x => if x.id = p.id then p else x)

/-- Mirrors `Application.countDocuments` filtered by pet id and status. -/
def countPetApps (apps : List Application) (petId : Nat) (s : AppStatus) : Nat :=
  apps.countP (fun a => decide (a.pet = petId ∧ a.status = s))

/-- Request body of `POST /api/applications` (`CreateApplicationDTO`). -/
structure CreateApplicationDTO where
  reason : String
  experience : String
  livingSpace : LivingSpace
  hasOtherPets : Bool
deriving DecidableEq, Repr

/-- Outcome of `createApplication`; one constructor per response branch of
the controller. -/
inductive CreateResult
  | petNotFound      -- 404 "Pet not found"
  | notAvailable     -- 400 "This pet is not available for adoption"
  | alreadyApplied   -- 400 "You have already applied for this pet"
  | created (appId : Nat)  -- 201
deriving DecidableEq, Repr

/-- The application document inserted by `Application.create` (status
defaults to pending, review metadata absent). -/
def newApp (appId userId petId : Nat) (body : CreateApplicationDTO) : Application :=
  { id := appId, pet := petId, user := userId,
    status := .pending, reason := body.reason,
    experience := body.experience, livingSpace := body.livingSpace,
    hasOtherPets := body.hasOtherPets, adminNotes := none,
    reviewedBy := none, reviewedAt := none }

/-- Translation of `createApplication` (`applicationController.ts`): check that the pet
exists, that it is available, and that the user has not already applied
(any status); then insert a pending application and set the pet's status
to pending. -/
def createApplication (st : State) (userId petId : Nat)
    (body : CreateApplicationDTO) : CreateResult × State :=
  match findPet st petId with
  | none => (.petNotFound, st)
  | some pet =>
    if pet.status ≠ PetStatus.available then (.notAvailable, st)
    else
      match st.apps.find? (fun a => decide (a.pet = petId ∧ a.user = userId)) with
      | some _ => (.alreadyApplied, st)
      | none =>
        (.created st.nextId,
          { pets := setPetStatus st.pets petId .pending,
            apps := st.apps ++ [newApp st.nextId userId petId body],
            nextId := st.nextId + 1 })

/-- A review decision that already passed the controller's membership
check `['approved', 'rejected'].includes(status)`. -/
inductive Decision
  | approved
  | rejected
deriving DecidableEq, Repr

/-- The application status written by a review decision. -/
def Decision.toStatus : Decision → AppStatus
  | .approved => .approved
  | .rejected => .rejected

/-- Outcome of `reviewApplication`; one constructor per response branch
(the invalid-enum branch is unrepresentable because `Decision` is already
the validated enumeration). -/
inductive ReviewResult
  | appNotFound      -- 404 "Application not found"
  | alreadyReviewed  -- 400 "Application has already been reviewed"
  | reviewed         -- 200
deriving DecidableEq, Repr

/-- The review stamp written onto the reviewed application (lines 212-215
of the controller): decision, notes, reviewer identity and the clock read
`now`. -/
def stampApp (a : Application) (decision : Decision)
    (adminNotes : Option String) (reviewerId now : Nat) : Application :=
  { a with status := decision.toStatus,
           adminNotes := adminNotes,
           reviewedBy := some reviewerId,
           reviewedAt := some now }

/-- The bulk update applied by `Application.updateMany` in the approval
branch of `reviewApplication`: every still-pending application on the
same pet is rejected with the fixed system note and the reviewer's stamp
taken at cascade time (`now2`). -/
def cascadeReject (petId reviewerId now2 : Nat) (a : Application) : Application :=
  if a.pet = petId ∧ a.status = AppStatus.pending then
    { a with status := .rejected,
             adminNotes := some "Pet has been adopted by another applicant",
             reviewedBy := some reviewerId,
             reviewedAt := some now2 }
  else a

/-- Translation of `reviewApplication` (`applicationController.ts`): stamp the reviewed
application, then (only if the pet still exists) update the pet's status,
cascading rejection to pending siblings on approval, or reverting the pet
to available on rejection when no pending sibling remains.  `now` is the
clock read used to stamp the reviewed application, `now2` the second
clock read used inside the cascade. -/
def reviewApplication (st : State) (reviewerId appId : Nat)
    (decision : Decision) (adminNotes : Option String)
    (now now2 : Nat) : ReviewResult × State :=
  match findApp st appId with
  | none => (.appNotFound, st)
  | some application =>
    if application.status ≠ AppStatus.pending then (.alreadyReviewed, st)
    else
      let app1 : Application := stampApp application decision adminNotes reviewerId now
      let st1 : State := { st with apps := saveApp st.apps app1 }
      match findPet st1 app1.pet with
      | none => (.reviewed, st1)
      | some pet =>
        match decision with
        | .approved =>
          (.reviewed,
            { st1 with
              apps := st1.apps.map (cascadeReject app1.pet reviewerId now2),
              pets := savePet st1.pets { pet with status := .adopted } })
        | .rejected =>
          let pendingCount := countPetApps st1.apps app1.pet .pending
          if pendingCount = 0 then
            (.reviewed, { st1 with pets := savePet st1.pets { pet with status := .available } })
          else
            (.reviewed, { st1 with pets := savePet st1.pets pet })

/-- Outcome of `deleteApplication`; one constructor per response branch. -/
inductive DeleteAppResult
  | appNotFound      -- 404 "Application not found"
  | notOwner         -- 403 "Not authorized to delete this application"
  | alreadyReviewed  -- 400 "Cannot delete reviewed applications"
  | deleted          -- 200
deriving DecidableEq, Repr

/-- Translation of `deleteApplication` (`applicationController.ts`): only the creator may
delete, only while pending; afterwards the pet reverts to available when
no pending application remains on it.  The controller never consults the
requester's role, so administrators get no override. -/
def deleteApplication (st : State) (requesterId appId : Nat) :
    DeleteAppResult × State :=
  match findApp st appId with
  | none => (.appNotFound, st)
  | some application =>
    if application.user ≠ requesterId then (.notOwner, st)
    else if application.status ≠ AppStatus.pending then (.alreadyReviewed, st)
    else
      let st1 : State := { st with apps := st.apps.filter (fun a => decide (a.id ≠ application.id)) }
      let pendingCount := countPetApps st1.apps application.pet .pending
      if pendingCount = 0 then
        (.deleted, { st1 with pets := setPetStatus st1.pets application.pet .available })
      else
        (.deleted, st1)

/-- Request body of `PUT /api/pets/:id`: `req.body` is applied wholesale
by `Pet.findByIdAndUpdate`, so every schema field may be supplied;
omitted fields keep their stored value. -/
structure UpdatePetBody where
  name : Option String := none
  species : Option Species := none
  breed : Option String := none
  age : Option Nat := none
  gender : Option Gender := none
  size : Option PetSize := none
  color : Option String := none
  description : Option String := none
  photo : Option String := none
  status : Option PetStatus := none
  vaccinated : Option Bool := none
  neutered : Option Bool := none
deriving DecidableEq, Repr

/-- Merge an update body into a stored pet document, field by field, as
`findByIdAndUpdate` does. -/
def applyPetUpdate (p : Pet) (b : UpdatePetBody) : Pet :=
  { p with
    name := b.name.getD p.name,
    species := b.species.getD p.species,
    breed := b.breed.getD p.breed,
    age := b.age.getD p.age,
    gender := b.gender.getD p.gender,
    size := (b.size.map some).getD p.size,
    color := (b.color.map some).getD p.color,
    description := b.description.getD p.description,
    photo := (b.photo.map some).getD p.photo,
    status := b.status.getD p.status,
    vaccinated := b.vaccinated.getD p.vaccinated,
    neutered := b.neutered.getD p.neutered }

/-- Outcome of `updatePet` / `updatePetStatus` / `deletePet`. -/
inductive PetOpResult
  | petNotFound   -- 404 "Pet not found"
  | updated       -- 200
deriving DecidableEq, Repr

/-- Translation of `updatePet` (`petController.ts`, `PUT /pets/:id`): after the existence
check, `req.body` is handed to `findByIdAndUpdate` unfiltered — the route
has no validation middleware and the controller does not strip `status`. -/
def updatePet (st : State) (petId : Nat) (body : UpdatePetBody) :
    PetOpResult × State :=
  match findPet st petId with
  | none => (.petNotFound, st)
  | some _ =>
    (.updated,
      { st with pets := st.pets.map (fun p => if p.id = petId then applyPetUpdate p body else p) })

/-- Translation of `updatePetStatus` (`petController.ts`, `PATCH /pets/:id/status`): the
explicit administrator status override.  The enum membership check of the
controller is represented by taking a `PetStatus` argument. -/
def updatePetStatus (st : State) (petId : Nat) (status : PetStatus) :
    PetOpResult × State :=
  match findPet st petId with
  | none => (.petNotFound, st)
  | some _ => (.updated, { st with pets := setPetStatus st.pets petId status })

/-- Translation of `deletePet` (`petController.ts`, `DELETE /pets/:id`): unconditional
removal; open applications on the pet are left in place. -/
def deletePet (st : State) (petId : Nat) : PetOpResult × State :=
  match findPet st petId with
  | none => (.petNotFound, st)
  | some _ =>
    (.updated, { st with pets := st.pets.filter (fun p => decide (p.id ≠ petId)) })

/-- One workflow operation of the adoption engine (the three operations
that create, review or delete applications). -/
inductive Op
  | create (userId petId : Nat) (body : CreateApplicationDTO)
  | review (reviewerId appId : Nat) (decision : Decision)
      (adminNotes : Option String) (now now2 : Nat)
  | delete (requesterId appId : Nat)
deriving DecidableEq, Repr

/-- State reached after one workflow operation (failed operations leave
the state unchanged, as every error branch returns before writing). -/
def applyOp (st : State) : Op → State
  | .create u p b => (createApplication st u p b).2
  | .review r a d n t1 t2 => (reviewApplication st r a d n t1 t2).2
  | .delete r a => (deleteApplication st r a).2

/-- State reached after a sequence of workflow operations. -/
def applyOps (st : State) (ops : List Op) : State :=
  ops.foldl applyOp st

/-- Well-formedness of the store, guaranteed by the database: application
ids are pairwise distinct and below the fresh-id counter, and pet ids are
pairwise distinct. -/
def WF (st : State) : Prop :=
  (st.apps.map Application.id).Nodup ∧
  (∀ a ∈ st.apps, a.id < st.nextId) ∧
  (st.pets.map Pet.id).Nodup

/-- The workflow consistency invariant for the pet with id `P`, the
inductive strengthening of the spec's status-consistency property:
1. the pet's status is pending exactly when some application on it is
   pending;
2. any approved application on the pet forces status adopted;
3. at most one application on the pet is approved;
4. an approved application excludes pending applications on the same pet;
5. status adopted requires an approved application. -/
def Consistent (st : State) (P : Nat) : Prop :=
  (petStatus st P = some PetStatus.pending ↔
    ∃ a ∈ st.apps, a.pet = P ∧ a.status = AppStatus.pending) ∧
  (∀ a ∈ st.apps, a.pet = P → a.status = AppStatus.approved →
    petStatus st P = some PetStatus.adopted) ∧
  (∀ a ∈ st.apps, ∀ b ∈ st.apps, a.pet = P → a.status = AppStatus.approved →
    b.pet = P → b.status = AppStatus.approved → a = b) ∧
  (∀ a ∈ st.apps, ∀ b ∈ st.apps, a.pet = P → a.status = AppStatus.approved →
    b.pet = P → b.status ≠ AppStatus.pending) ∧
  (petStatus st P = some PetStatus.adopted →
    ∃ a ∈ st.apps, a.pet = P ∧ a.status = AppStatus.approved)

/-- A pet id on which the workflow can never act: no application refers to
it and its status is not available (so `createApplication` refuses and no
application on it ever appears). -/
def Blocked (st : State) (P : Nat) : Prop :=
  (∀ a ∈ st.apps, a.pet ≠ P) ∧ petStatus st P ≠ some PetStatus.available

/-- Test fixture: a pet document with the given id and status. -/
def mkPet (petId : Nat) (status : PetStatus) : Pet :=
  { id := petId, name := "Rex", species := .dog, breed := "Labrador", age := 3,
    gender := .male, size := none, color := none, description := "friendly",
    photo := none, status := status, vaccinated := false, neutered := false,
    addedBy := 0 }

/-- Test fixture: an application document with the given ids and status. -/
def mkApp (appId petId userId : Nat) (status : AppStatus) : Application :=
  { id := appId, pet := petId, user := userId, status := status,
    reason := "love pets", experience := "some", livingSpace := .house,
    hasOtherPets := false, adminNotes := none, reviewedBy := none,
    reviewedAt := none }

/-- Test fixture: a request body for `createApplication`. -/
def mkDTO : CreateApplicationDTO :=
  { reason := "love pets", experience := "some", livingSpace := .house,
    hasOtherPets := false }

/-- Test fixture: one pet (id 0, status pending) with two pending
applications (id 0 by user 1, id 1 by user 2). -/
def stTwoPending : State :=
  { pets := [mkPet 0 .pending],
    apps := [mkApp 0 0 1 .pending, mkApp 1 0 2 .pending],
    nextId := 2 }

/-- Test fixture: one adopted pet with the approved application that
adopted it. -/
def stAdoptedApproved : State :=
  { pets := [mkPet 0 .adopted], apps := [mkApp 0 0 1 .approved], nextId := 1 }

/-- Test fixture: one available pet, no applications. -/
def stOneAvailable : State :=
  { pets := [mkPet 0 .available], apps := [], nextId := 0 }

/-- Test fixture: one pending pet with its single pending application. -/
def stOnePending : State :=
  { pets := [mkPet 0 .pending], apps := [mkApp 0 0 1 .pending], nextId := 1 }

/-- Test fixture: one available pet with a rejected application by user 1
(the pet reverted to available after the rejection). -/
def stAvailRejected : State :=
  { pets := [mkPet 0 .available], apps := [mkApp 0 0 1 .rejected], nextId := 1 }

/-! ### Generic lemmas about the store primitives -/

lemma find?_map_comm {α : Type} (f : α → α) (p : α → Bool) (l : List α)
    (h : ∀ x ∈ l, p (f x) = p x) : (l.map f).find? p = (l.find? p).map f := by
  induction l with
  | nil => rfl
  | cons a t ih =>
    have ha := h a (List.mem_cons_self a t)
    rw [List.map_cons]
    cases hpa : p a with
    | true =>
      rw [List.find?_cons_of_pos _ (ha.trans hpa), List.find?_cons_of_pos _ hpa,
        Option.map_some']
    | false =>
      rw [List.find?_cons_of_neg _ (by simp [ha, hpa]),
        List.find?_cons_of_neg _ (by simp [hpa])]
      exact ih (fun x hx => h x (List.mem_cons_of_mem a hx))

lemma find?_self_of_nodup {α β : Type} [DecidableEq β] (f : α → β) (l : List α)
    (hnd : (l.map f).Nodup) {a : α} (ha : a ∈ l) :
    l.find? (fun x => decide (f x = f a)) = some a := by
  induction l with
  | nil => cases ha
  | cons b t ih =>
    rw [List.map_cons, List.nodup_cons] at hnd
    by_cases hb : f b = f a
    · rcases List.mem_cons.mp ha with rfl | hat
      · exact List.find?_cons_of_pos _ (by simp)
      · exact absurd (hb ▸ List.mem_map_of_mem f hat) hnd.1
    · have hat : a ∈ t := by
        rcases List.mem_cons.mp ha with rfl | hmem
        · exact absurd rfl hb
        · exact hmem
      rw [List.find?_cons_of_neg _ (by simp [hb])]
      exact ih hnd.2 hat

lemma map_ids_of_preserve {α β : Type} (f : α → α) (g : α → β) (l : List α)
    (h : ∀ x ∈ l, g (f x) = g x) : (l.map f).map g = l.map g := by
  rw [List.map_map]
  exact List.map_congr_left (fun x hx => h x hx)

lemma mem_saveApp_cases {apps : List Application} {a x : Application}
    (hx : x ∈ saveApp apps a) : x = a ∨ (x ∈ apps ∧ x.id ≠ a.id) := by
  rcases List.mem_map.mp hx with ⟨z, hz, hzx⟩
  by_cases h : z.id = a.id
  · left
    rw [← hzx, if_pos h]
  · right
    rw [← hzx, if_neg h]
    exact ⟨hz, h⟩

lemma mem_saveApp_of_ne {apps : List Application} {a z : Application}
    (hz : z ∈ apps) (h : z.id ≠ a.id) : z ∈ saveApp apps a :=
  List.mem_map.mpr ⟨z, hz, if_neg h⟩

lemma mem_saveApp_self {apps : List Application} {a z : Application}
    (hz : z ∈ apps) (h : z.id = a.id) : a ∈ saveApp apps a :=
  List.mem_map.mpr ⟨z, hz, if_pos h⟩

lemma saveApp_ids (apps : List Application) (a : Application) :
    (saveApp apps a).map Application.id = apps.map Application.id := by
  unfold saveApp
  apply map_ids_of_preserve
  intro x _
  by_cases h : x.id = a.id
  · rw [if_pos h, h]
  · rw [if_neg h]

lemma find?_saveApp (apps : List Application) (a : Application) (i : Nat) :
    (saveApp apps a).find? (fun x => decide (x.id = i)) =
      (apps.find? (fun x => decide (x.id = i))).map (fun x => if x.id = a.id then a else x) := by
  apply find?_map_comm
  intro x _
  by_cases h : x.id = a.id
  · rw [if_pos h, h]
  · rw [if_neg h]

lemma cascadeReject_id (P r t : Nat) (a : Application) :
    (cascadeReject P r t a).id = a.id := by
  unfold cascadeReject
  split <;> rfl

lemma cascadeReject_pet (P r t : Nat) (a : Application) :
    (cascadeReject P r t a).pet = a.pet := by
  unfold cascadeReject
  split <;> rfl

lemma cascadeReject_of_not {P r t : Nat} {a : Application}
    (h : ¬(a.pet = P ∧ a.status = AppStatus.pending)) : cascadeReject P r t a = a := by
  unfold cascadeReject
  rw [if_neg h]

lemma cascadeReject_of_hit {P r t : Nat} {a : Application}
    (h : a.pet = P ∧ a.status = AppStatus.pending) :
    cascadeReject P r t a =
      { a with status := .rejected,
               adminNotes := some "Pet has been adopted by another applicant",
               reviewedBy := some r,
               reviewedAt := some t } := by
  unfold cascadeReject
  rw [if_pos h]

lemma cascadeReject_not_pending (P r t : Nat) (x : Application) :
    ¬((cascadeReject P r t x).pet = P ∧ (cascadeReject P r t x).status = AppStatus.pending) := by
  unfold cascadeReject
  split
  · rintro ⟨-, h⟩
    cases h
  · next h => exact h

lemma find?_pets_map (pets : List Pet) (f : Pet → Pet) (P : Nat)
    (hpred : ∀ p ∈ pets, (f p).id = p.id) :
    (pets.map f).find? (fun p => decide (p.id = P)) =
      (pets.find? (fun p => decide (p.id = P))).map f := by
  apply find?_map_comm
  intro x hx
  rw [hpred x hx]

lemma findApp_mem {st : State} {i : Nat} {A : Application}
    (h : findApp st i = some A) : A ∈ st.apps :=
  List.mem_of_find?_eq_some h

lemma findApp_id {st : State} {i : Nat} {A : Application}
    (h : findApp st i = some A) : A.id = i := by
  simpa using List.find?_some h

lemma findPet_mem {st : State} {i : Nat} {p : Pet}
    (h : findPet st i = some p) : p ∈ st.pets :=
  List.mem_of_find?_eq_some h

lemma findPet_id {st : State} {i : Nat} {p : Pet}
    (h : findPet st i = some p) : p.id = i := by
  simpa using List.find?_some h

lemma countPetApps_eq_zero {apps : List Application} {P : Nat} {s : AppStatus} :
    countPetApps apps P s = 0 ↔ ∀ a ∈ apps, ¬(a.pet = P ∧ a.status = s) := by
  unfold countPetApps
  rw [List.countP_eq_zero]
  simp

lemma stampApp_pet (a : Application) (d : Decision) (n : Option String) (r t : Nat) :
    (stampApp a d n r t).pet = a.pet := rfl

lemma stampApp_id (a : Application) (d : Decision) (n : Option String) (r t : Nat) :
    (stampApp a d n r t).id = a.id := rfl

lemma stampApp_user (a : Application) (d : Decision) (n : Option String) (r t : Nat) :
    (stampApp a d n r t).user = a.user := rfl

lemma stampApp_status (a : Application) (d : Decision) (n : Option String) (r t : Nat) :
    (stampApp a d n r t).status = d.toStatus := rfl

/-! ### Case analyses of the three workflow operations

Each lemma enumerates the possible post-states of one controller: either
an error branch fired and the store is untouched, or the operation's
writes are spelled out. -/

lemma createApplication_cases (st : State) (u p : Nat) (body : CreateApplicationDTO) :
    (createApplication st u p body).2 = st ∨
    (∃ pet, findPet st p = some pet ∧ pet.status = PetStatus.available ∧
      (∀ a ∈ st.apps, ¬(a.pet = p ∧ a.user = u)) ∧
      (createApplication st u p body).2 =
        { pets := setPetStatus st.pets p .pending,
          apps := st.apps ++ [newApp st.nextId u p body],
          nextId := st.nextId + 1 }) := by
  cases hP : findPet st p with
  | none => left; simp [createApplication, hP]
  | some pet =>
    by_cases hs : pet.status = PetStatus.available
    · cases hdup : st.apps.find? (fun a => decide (a.pet = p ∧ a.user = u)) with
      | some a =>
        left
        simp only [Bool.decide_and] at hdup
        simp [createApplication, hP, hs, hdup]
      | none =>
        right
        refine ⟨pet, rfl, hs, ?_, ?_⟩
        · intro a ha
          simpa using List.find?_eq_none.mp hdup a ha
        · simp only [Bool.decide_and] at hdup
          simp [createApplication, hP, hs, hdup]
    · left
      simp [createApplication, hP, hs]

lemma reviewApplication_cases (st : State) (r i : Nat) (d : Decision)
    (n : Option String) (t1 t2 : Nat) :
    (reviewApplication st r i d n t1 t2).2 = st ∨
    ∃ A, findApp st i = some A ∧ A.status = AppStatus.pending ∧
      (reviewApplication st r i d n t1 t2).1 = ReviewResult.reviewed ∧
      ((findPet st A.pet = none ∧
          (reviewApplication st r i d n t1 t2).2 =
            { st with apps := saveApp st.apps (stampApp A d n r t1) }) ∨
       (∃ pet, findPet st A.pet = some pet ∧
         ((d = .approved ∧
            (reviewApplication st r i d n t1 t2).2 =
              { st with
                apps := (saveApp st.apps (stampApp A d n r t1)).map (cascadeReject A.pet r t2),
                pets := savePet st.pets { pet with status := .adopted } }) ∨
          (d = .rejected ∧
            countPetApps (saveApp st.apps (stampApp A d n r t1)) A.pet .pending = 0 ∧
            (reviewApplication st r i d n t1 t2).2 =
              { st with
                apps := saveApp st.apps (stampApp A d n r t1),
                pets := savePet st.pets { pet with status := .available } }) ∨
          (d = .rejected ∧
            countPetApps (saveApp st.apps (stampApp A d n r t1)) A.pet .pending ≠ 0 ∧
            (reviewApplication st r i d n t1 t2).2 =
              { st with
                apps := saveApp st.apps (stampApp A d n r t1),
                pets := savePet st.pets pet })))) := by
  cases hA : findApp st i with
  | none => left; simp [reviewApplication, hA]
  | some A =>
    by_cases hs : A.status = AppStatus.pending
    · right
      refine ⟨A, rfl, hs, ?_⟩
      cases hP : findPet st A.pet with
      | none =>
        have hP' : st.pets.find? (fun x => decide (x.id = A.pet)) = none := hP
        constructor
        · simp [reviewApplication, hA, hs, findPet, stampApp_pet, hP']
        · left
          exact ⟨rfl, by simp [reviewApplication, hA, hs, findPet, stampApp_pet, hP']⟩
      | some pet =>
        have hP' : st.pets.find? (fun x => decide (x.id = A.pet)) = some pet := hP
        constructor
        · cases d with
          | approved => simp [reviewApplication, hA, hs, findPet, stampApp_pet, hP']
          | rejected =>
            by_cases hc :
              countPetApps (saveApp st.apps (stampApp A .rejected n r t1)) A.pet .pending = 0 <;>
              simp [reviewApplication, hA, hs, findPet, hP', stampApp_pet, hc]
        · right
          refine ⟨pet, rfl, ?_⟩
          cases d with
          | approved =>
            left
            exact ⟨rfl, by simp [reviewApplication, hA, hs, findPet, stampApp_pet, hP']⟩
          | rejected =>
            right
            by_cases hc :
              countPetApps (saveApp st.apps (stampApp A .rejected n r t1)) A.pet .pending = 0
            · left
              exact ⟨rfl, hc, by simp [reviewApplication, hA, hs, findPet, hP', stampApp_pet, hc]⟩
            · right
              exact ⟨rfl, hc, by simp [reviewApplication, hA, hs, findPet, hP', stampApp_pet, hc]⟩
    · left
      simp [reviewApplication, hA, hs]

lemma deleteApplication_cases (st : State) (r i : Nat) :
    (deleteApplication st r i).2 = st ∨
    ∃ A, findApp st i = some A ∧ A.user = r ∧ A.status = AppStatus.pending ∧
      (deleteApplication st r i).1 = DeleteAppResult.deleted ∧
      ((countPetApps (st.apps.filter (fun a => decide (a.id ≠ A.id))) A.pet .pending = 0 ∧
         (deleteApplication st r i).2 =
           { st with apps := st.apps.filter (fun a => decide (a.id ≠ A.id)),
                     pets := setPetStatus st.pets A.pet .available }) ∨
       (countPetApps (st.apps.filter (fun a => decide (a.id ≠ A.id))) A.pet .pending ≠ 0 ∧
         (deleteApplication st r i).2 =
           { st with apps := st.apps.filter (fun a => decide (a.id ≠ A.id)) })) := by
  cases hA : findApp st i with
  | none => left; simp [deleteApplication, hA]
  | some A =>
    by_cases hu : A.user = r
    · by_cases hs : A.status = AppStatus.pending
      · right
        refine ⟨A, rfl, hu, hs, ?_, ?_⟩
        · by_cases hc :
            countPetApps (st.apps.filter (fun a => decide (a.id ≠ A.id))) A.pet .pending = 0 <;>
          · have hc' := hc
            simp only [decide_not] at hc'
            simp [deleteApplication, hA, hu, hs, hc']
        · by_cases hc :
            countPetApps (st.apps.filter (fun a => decide (a.id ≠ A.id))) A.pet .pending = 0
          all_goals
            have hc' := hc
            simp only [decide_not] at hc'
          · left
            exact ⟨hc, by simp [deleteApplication, hA, hu, hs, hc']⟩
          · right
            exact ⟨hc, by simp [deleteApplication, hA, hu, hs, hc']⟩
      · left
        simp [deleteApplication, hA, hu, hs]
    · left
      simp [deleteApplication, hA, hu]

lemma find?_setPetStatus (pets : List Pet) (pid : Nat) (s : PetStatus) (Q : Nat) :
    (setPetStatus pets pid s).find? (fun x => decide (x.id = Q)) =
      (pets.find? (fun x => decide (x.id = Q))).map
        (fun p => if p.id = pid then { p with status := s } else p) := by
  apply find?_map_comm
  intro x _
  by_cases h : x.id = pid
  · rw [if_pos h]
  · rw [if_neg h]

lemma find?_savePet (pets : List Pet) (q : Pet) (Q : Nat) :
    (savePet pets q).find? (fun x => decide (x.id = Q)) =
      (pets.find? (fun x => decide (x.id = Q))).map
        (fun x => if x.id = q.id then q else x) := by
  apply find?_map_comm
  intro x _
  by_cases h : x.id = q.id
  · rw [if_pos h, ← h]
  · rw [if_neg h]

lemma applyPetUpdate_id (p : Pet) (b : UpdatePetBody) :
    (applyPetUpdate p b).id = p.id := rfl

/-! ### Claim theorems -/

/-- C5: `createApplication` checks its preconditions in this order —
missing pet (404 "Pet not found"), pet not available (400 "This pet is
not available for adoption"), an existing application for the
(pet, applicant) pair regardless of its status (400 "You have already
applied for this pet") — and on success inserts an application with
status pending and sets the pet's status to pending. -/
theorem createApplication_precondition_order (st : State) (u p : Nat)
    (body : CreateApplicationDTO) :
    (findPet st p = none → createApplication st u p body = (.petNotFound, st)) ∧
    (∀ pet, findPet st p = some pet → pet.status ≠ PetStatus.available →
      createApplication st u p body = (.notAvailable, st)) ∧
    (∀ pet, findPet st p = some pet → pet.status = PetStatus.available →
      (∃ a ∈ st.apps, a.pet = p ∧ a.user = u) →
      createApplication st u p body = (.alreadyApplied, st)) ∧
    (∀ pet, findPet st p = some pet → pet.status = PetStatus.available →
      (∀ a ∈ st.apps, ¬(a.pet = p ∧ a.user = u)) →
      (createApplication st u p body).1 = .created st.nextId ∧
      newApp st.nextId u p body ∈ (createApplication st u p body).2.apps ∧
      (newApp st.nextId u p body).status = AppStatus.pending ∧
      petStatus (createApplication st u p body).2 p = some PetStatus.pending) := by
  refine ⟨?_, ?_, ?_, ?_⟩
  · intro hP
    simp [createApplication, hP]
  · intro pet hP hs
    simp [createApplication, hP, hs]
  · intro pet hP hs hdup
    cases hfind : st.apps.find? (fun a => decide (a.pet = p ∧ a.user = u)) with
    | none =>
      obtain ⟨a, ha, hpa⟩ := hdup
      have hna := List.find?_eq_none.mp hfind a ha
      simp only [decide_eq_true_eq] at hna
      exact absurd hpa hna
    | some a =>
      have hfind' := hfind
      simp only [Bool.decide_and] at hfind'
      simp [createApplication, hP, hs, hfind']
  · intro pet hP hs hnone
    have hfind : st.apps.find? (fun a => decide (a.pet = p ∧ a.user = u)) = none := by
      apply List.find?_eq_none.mpr
      intro a ha
      simpa using hnone a ha
    have hfind' := hfind
    simp only [Bool.decide_and] at hfind'
    have hst : createApplication st u p body =
        (.created st.nextId,
          { pets := setPetStatus st.pets p .pending,
            apps := st.apps ++ [newApp st.nextId u p body],
            nextId := st.nextId + 1 }) := by
      simp [createApplication, hP, hs, hfind']
    rw [hst]
    refine ⟨rfl, by simp, rfl, ?_⟩
    have hid : pet.id = p := findPet_id hP
    have hP' : st.pets.find? (fun x => decide (x.id = p)) = some pet := hP
    simp only [petStatus, findPet, find?_setPetStatus, hP', Option.map_some', if_pos hid]

/-- C8: `deleteApplication` checks its preconditions in this order —
missing application (404), requester not the creator (403 — the role is
never consulted, so administrators get no override), application no
longer pending (400 "Cannot delete reviewed applications") — and on
success removes the application and sets the pet's status to available
exactly when zero pending applications remain on the pet (leaving it
untouched otherwise). -/
theorem deleteApplication_precondition_order (st : State) (req i : Nat) :
    (findApp st i = none → deleteApplication st req i = (.appNotFound, st)) ∧
    (∀ A, findApp st i = some A → A.user ≠ req →
      deleteApplication st req i = (.notOwner, st)) ∧
    (∀ A, findApp st i = some A → A.user = req → A.status ≠ AppStatus.pending →
      deleteApplication st req i = (.alreadyReviewed, st)) ∧
    (∀ A, findApp st i = some A → A.user = req → A.status = AppStatus.pending →
      (deleteApplication st req i).1 = .deleted ∧
      (∀ b ∈ (deleteApplication st req i).2.apps, b.id ≠ i) ∧
      (countPetApps (deleteApplication st req i).2.apps A.pet .pending = 0 →
        petStatus (deleteApplication st req i).2 A.pet =
          (petStatus st A.pet).map (fun _ => PetStatus.available)) ∧
      (countPetApps (deleteApplication st req i).2.apps A.pet .pending ≠ 0 →
        petStatus (deleteApplication st req i).2 A.pet = petStatus st A.pet)) := by
  refine ⟨?_, ?_, ?_, ?_⟩
  · intro hA
    simp [deleteApplication, hA]
  · intro A hA hu
    simp [deleteApplication, hA, hu]
  · intro A hA hu hs
    simp [deleteApplication, hA, hu, hs]
  · intro A hA hu hs
    have hAid : A.id = i := findApp_id hA
    by_cases hc : countPetApps (st.apps.filter (fun a => decide (a.id ≠ A.id))) A.pet .pending = 0
    · have hc' := hc
      simp only [decide_not] at hc'
      have hst : deleteApplication st req i =
          (.deleted,
            { pets := setPetStatus st.pets A.pet .available,
              apps := st.apps.filter (fun a => decide (a.id ≠ A.id)),
              nextId := st.nextId }) := by
        simp [deleteApplication, hA, hu, hs, hc']
      rw [hst]
      refine ⟨rfl, ?_, ?_, ?_⟩
      · intro b hb
        have := (List.mem_filter.mp hb).2
        simp only [decide_eq_true_eq] at this
        exact hAid ▸ this
      · intro _
        simp only [petStatus, findPet, find?_setPetStatus]
        cases hq : st.pets.find? (fun x => decide (x.id = A.pet)) with
        | none => rfl
        | some q =>
          have hqid : q.id = A.pet := by simpa using List.find?_some hq
          simp [if_pos hqid]
      · intro hcon
        exact absurd hc hcon
    · have hc' := hc
      simp only [decide_not] at hc'
      have hst : deleteApplication st req i =
          (.deleted, { st with apps := st.apps.filter (fun a => decide (a.id ≠ A.id)) }) := by
        simp [deleteApplication, hA, hu, hs, hc']
      rw [hst]
      refine ⟨rfl, ?_, ?_, ?_⟩
      · intro b hb
        have := (List.mem_filter.mp hb).2
        simp only [decide_eq_true_eq] at this
        exact hAid ▸ this
      · intro hcon
        exact absurd hcon hc
      · intro _
        rfl

/-- C10: reviewing a pending application whose pet no longer exists (for
example because `deletePet` removed it) still succeeds: the application is
stamped with the decision, reviewer, timestamp and notes, every
pet-status update and sibling cascade is silently skipped, and the
updated application is returned instead of a NotFound failure. -/
theorem reviewApplication_missing_pet (st : State) (r i : Nat) (d : Decision)
    (n : Option String) (t1 t2 : Nat) (A : Application)
    (hA : findApp st i = some A) (hs : A.status = AppStatus.pending)
    (hP : findPet st A.pet = none) :
    (reviewApplication st r i d n t1 t2).1 = ReviewResult.reviewed ∧
    (reviewApplication st r i d n t1 t2).2.pets = st.pets ∧
    findApp (reviewApplication st r i d n t1 t2).2 i = some (stampApp A d n r t1) ∧
    (∀ b ∈ st.apps, b.id ≠ i → b ∈ (reviewApplication st r i d n t1 t2).2.apps) := by
  have hAid : A.id = i := findApp_id hA
  have hP' : st.pets.find? (fun x => decide (x.id = A.pet)) = none := hP
  have hA' : st.apps.find? (fun a => decide (a.id = i)) = some A := hA
  have hst : reviewApplication st r i d n t1 t2 =
      (.reviewed, { st with apps := saveApp st.apps (stampApp A d n r t1) }) := by
    simp [reviewApplication, hA, hs, findPet, stampApp_pet, hP']
  rw [hst]
  refine ⟨rfl, rfl, ?_, ?_⟩
  · have hshow : findApp { st with apps := saveApp st.apps (stampApp A d n r t1) } i =
        (saveApp st.apps (stampApp A d n r t1)).find? (fun a => decide (a.id = i)) := rfl
    rw [hshow, find?_saveApp, hA', Option.map_some']
    simp [stampApp_id]
  · intro b hb hbi
    exact mem_saveApp_of_ne hb (by rw [stampApp_id, hAid]; exact hbi)

/-- C4: rejecting a pending application on an existing (pending) pet
stamps the application as rejected with reviewer, timestamp and notes,
then sets the pet's status to available when zero pending applications on
the pet remain, and leaves it pending otherwise. -/
theorem reviewApplication_reject_spec (st : State) (r i : Nat) (n : Option String)
    (t1 t2 : Nat) (A : Application) (P0 : Pet)
    (hA : findApp st i = some A) (hs : A.status = AppStatus.pending)
    (hP : findPet st A.pet = some P0) (hPs : P0.status = PetStatus.pending) :
    (reviewApplication st r i .rejected n t1 t2).1 = ReviewResult.reviewed ∧
    findApp (reviewApplication st r i .rejected n t1 t2).2 i =
      some (stampApp A .rejected n r t1) ∧
    ((∀ b ∈ st.apps, b.id ≠ i → ¬(b.pet = A.pet ∧ b.status = AppStatus.pending)) →
      petStatus (reviewApplication st r i .rejected n t1 t2).2 A.pet =
        some PetStatus.available) ∧
    ((∃ b ∈ st.apps, b.id ≠ i ∧ b.pet = A.pet ∧ b.status = AppStatus.pending) →
      petStatus (reviewApplication st r i .rejected n t1 t2).2 A.pet =
        some PetStatus.pending) := by
  have hAid : A.id = i := findApp_id hA
  have hP' : st.pets.find? (fun x => decide (x.id = A.pet)) = some P0 := hP
  have hP0id : P0.id = A.pet := findPet_id hP
  have hA' : st.apps.find? (fun a => decide (a.id = i)) = some A := hA
  have hchar : countPetApps (saveApp st.apps (stampApp A .rejected n r t1)) A.pet .pending = 0
      ↔ (∀ b ∈ st.apps, b.id ≠ i → ¬(b.pet = A.pet ∧ b.status = AppStatus.pending)) := by
    rw [countPetApps_eq_zero]
    constructor
    · intro h b hb hbi
      exact h b (mem_saveApp_of_ne hb (by rw [stampApp_id, hAid]; exact hbi))
    · intro h x hx
      rcases mem_saveApp_cases hx with rfl | ⟨hxmem, hxid⟩
      · rintro ⟨-, hpend⟩
        simp [stampApp_status, Decision.toStatus] at hpend
      · rw [stampApp_id, hAid] at hxid
        exact h x hxmem hxid
  have hfindApp : ∀ X : List Pet,
      findApp { pets := X, apps := saveApp st.apps (stampApp A .rejected n r t1),
                nextId := st.nextId } i = some (stampApp A .rejected n r t1) := by
    intro X
    have hshow : findApp
        { pets := X,
          apps := saveApp st.apps (stampApp A .rejected n r t1),
          nextId := st.nextId } i =
        (saveApp st.apps (stampApp A .rejected n r t1)).find? (fun a => decide (a.id = i)) := rfl
    rw [hshow, find?_saveApp, hA', Option.map_some']
    simp [stampApp_id]
  by_cases hc : countPetApps (saveApp st.apps (stampApp A .rejected n r t1)) A.pet .pending = 0
  · have hst : reviewApplication st r i .rejected n t1 t2 =
        (.reviewed,
          { pets := savePet st.pets { P0 with status := .available },
            apps := saveApp st.apps (stampApp A .rejected n r t1),
            nextId := st.nextId }) := by
      simp [reviewApplication, hA, hs, findPet, stampApp_pet, hP', hc]
    rw [hst]
    refine ⟨rfl, hfindApp _, ?_, ?_⟩
    · intro _
      have hshow : petStatus
          { pets := savePet st.pets { P0 with status := PetStatus.available },
            apps := saveApp st.apps (stampApp A .rejected n r t1),
            nextId := st.nextId } A.pet =
          ((savePet st.pets { P0 with status := PetStatus.available }).find?
            (fun x => decide (x.id = A.pet))).map Pet.status := rfl
      rw [hshow, find?_savePet, hP', Option.map_some']
      simp
    · rintro ⟨b, hb, hbi, hbp, hbs⟩
      exact absurd ⟨hbp, hbs⟩ (hchar.mp hc b hb hbi)
  · have hst : reviewApplication st r i .rejected n t1 t2 =
        (.reviewed,
          { pets := savePet st.pets P0,
            apps := saveApp st.apps (stampApp A .rejected n r t1),
            nextId := st.nextId }) := by
      simp [reviewApplication, hA, hs, findPet, stampApp_pet, hP', hc]
    rw [hst]
    refine ⟨rfl, hfindApp _, ?_, ?_⟩
    · intro hall
      exact absurd (hchar.mpr hall) hc
    · intro _
      have hshow : petStatus
          { pets := savePet st.pets P0,
            apps := saveApp st.apps (stampApp A .rejected n r t1),
            nextId := st.nextId } A.pet =
          ((savePet st.pets P0).find? (fun x => decide (x.id = A.pet))).map Pet.status := rfl
      rw [hshow, find?_savePet, hP', Option.map_some']
      simp [hPs]

/-- C3 (amended): approving a pending application on an existing pet
stamps the application as approved with the reviewer, the caller's notes
and the first clock read; sets the pet's status to adopted; and rejects
every other still-pending application on the same pet with the same
reviewer, the fixed system note "Pet has been adopted by another
applicant", and a second clock read taken when the cascade runs (not
necessarily equal to the approved application's timestamp).  The approved
application itself is not overwritten by the cascade, and applications
that are not pending siblings are untouched. -/
theorem reviewApplication_approve_spec (st : State) (r i : Nat) (n : Option String)
    (t1 t2 : Nat) (A : Application) (P0 : Pet)
    (hA : findApp st i = some A) (hs : A.status = AppStatus.pending)
    (hP : findPet st A.pet = some P0) :
    (reviewApplication st r i .approved n t1 t2).1 = ReviewResult.reviewed ∧
    findApp (reviewApplication st r i .approved n t1 t2).2 i =
      some (stampApp A .approved n r t1) ∧
    petStatus (reviewApplication st r i .approved n t1 t2).2 A.pet =
      some PetStatus.adopted ∧
    (∀ b ∈ st.apps, b.id ≠ i → b.pet = A.pet → b.status = AppStatus.pending →
      { b with status := AppStatus.rejected,
               adminNotes := some "Pet has been adopted by another applicant",
               reviewedBy := some r, reviewedAt := some t2 } ∈
        (reviewApplication st r i .approved n t1 t2).2.apps) ∧
    (∀ b ∈ st.apps, b.id ≠ i → ¬(b.pet = A.pet ∧ b.status = AppStatus.pending) →
      b ∈ (reviewApplication st r i .approved n t1 t2).2.apps) := by
  have hAid : A.id = i := findApp_id hA
  have hP' : st.pets.find? (fun x => decide (x.id = A.pet)) = some P0 := hP
  have hA' : st.apps.find? (fun a => decide (a.id = i)) = some A := hA
  have hst : reviewApplication st r i .approved n t1 t2 =
      (.reviewed,
        { pets := savePet st.pets { P0 with status := .adopted },
          apps := (saveApp st.apps (stampApp A .approved n r t1)).map
            (cascadeReject A.pet r t2),
          nextId := st.nextId }) := by
    simp [reviewApplication, hA, hs, findPet, stampApp_pet, hP']
  rw [hst]
  refine ⟨rfl, ?_, ?_, ?_, ?_⟩
  · have hshow : findApp
        { pets := savePet st.pets { P0 with status := PetStatus.adopted },
          apps := (saveApp st.apps (stampApp A .approved n r t1)).map (cascadeReject A.pet r t2),
          nextId := st.nextId } i =
        ((saveApp st.apps (stampApp A .approved n r t1)).map
          (cascadeReject A.pet r t2)).find? (fun a => decide (a.id = i)) := rfl
    rw [hshow, find?_map_comm _ _ _ (fun x _ => by rw [cascadeReject_id]),
      find?_saveApp, hA', Option.map_some']
    have hinner : (if A.id = (stampApp A .approved n r t1).id
        then stampApp A .approved n r t1 else A) = stampApp A .approved n r t1 := by
      simp [stampApp_id]
    rw [hinner, Option.map_some',
      cascadeReject_of_not (by rintro ⟨-, h2⟩; simp [stampApp_status, Decision.toStatus] at h2)]
  · have hshow : petStatus
        { pets := savePet st.pets { P0 with status := PetStatus.adopted },
          apps := (saveApp st.apps (stampApp A .approved n r t1)).map (cascadeReject A.pet r t2),
          nextId := st.nextId } A.pet =
        ((savePet st.pets { P0 with status := PetStatus.adopted }).find?
          (fun x => decide (x.id = A.pet))).map Pet.status := rfl
    rw [hshow, find?_savePet, hP', Option.map_some']
    simp
  · intro b hb hbi hbp hbs
    have hbmem : b ∈ saveApp st.apps (stampApp A .approved n r t1) :=
      mem_saveApp_of_ne hb (by rw [stampApp_id, hAid]; exact hbi)
    have hmapped := List.mem_map_of_mem (cascadeReject A.pet r t2) hbmem
    rwa [cascadeReject_of_hit ⟨hbp, hbs⟩] at hmapped
  · intro b hb hbi hnb
    have hbmem : b ∈ saveApp st.apps (stampApp A .approved n r t1) :=
      mem_saveApp_of_ne hb (by rw [stampApp_id, hAid]; exact hbi)
    have hmapped := List.mem_map_of_mem (cascadeReject A.pet r t2) hbmem
    rwa [cascadeReject_of_not hnb] at hmapped

/-- C3 (counterexample): in a run where the two clock reads of
`reviewApplication` differ (first read 5, second read 6), the cascaded
sibling is stamped with timestamp 6 while the approved application is
stamped with timestamp 5 — so the sibling does not carry "the same
timestamp" as the approved application, contrary to the claim. -/
theorem reviewApplication_cascade_timestamp_differs :
    (findApp (reviewApplication stTwoPending 9 0 .approved none 5 6).2 0).map
      Application.reviewedAt = some (some 5) ∧
    (findApp (reviewApplication stTwoPending 9 0 .approved none 5 6).2 1).map
      Application.reviewedAt = some (some 6) ∧
    (findApp (reviewApplication stTwoPending 9 0 .approved none 5 6).2 1).map
      Application.status = some AppStatus.rejected ∧
    (findApp (reviewApplication stTwoPending 9 0 .approved none 5 6).2 1).map
      Application.adminNotes = some (some "Pet has been adopted by another applicant") ∧
    (findApp (reviewApplication stTwoPending 9 0 .approved none 5 6).2 1).map
      Application.reviewedAt ≠
    (findApp (reviewApplication stTwoPending 9 0 .approved none 5 6).2 0).map
      Application.reviewedAt := by
  refine ⟨rfl, rfl, rfl, rfl, ?_⟩
  decide

/-- C6 (counterexample): user 1 holds a terminal (approved) application on
pet 0, whose status is adopted; re-applying fails with the
pet-not-available error (the availability check runs first), not with the
already-applied conflict the claim requires for every pet status. -/
theorem createApplication_terminal_reapply_not_conflict :
    findApp stAdoptedApproved 0 = some (mkApp 0 0 1 AppStatus.approved) ∧
    (mkApp 0 0 1 AppStatus.approved).status = AppStatus.approved ∧
    (mkApp 0 0 1 AppStatus.approved).user = 1 ∧
    (mkApp 0 0 1 AppStatus.approved).pet = 0 ∧
    (createApplication stAdoptedApproved 1 0 mkDTO).1 = CreateResult.notAvailable ∧
    CreateResult.notAvailable ≠ CreateResult.alreadyApplied := by
  refine ⟨rfl, rfl, rfl, rfl, rfl, ?_⟩
  decide

/-- C6 (amended): after a terminal (approved or rejected) application by
account `u` on pet `p`, a second `createApplication` by `u` on `p` never
succeeds and never changes the store; it fails with the already-applied
conflict exactly when the pet is currently available, and with an earlier
precondition error (missing pet / pet not available) otherwise. -/
theorem createApplication_duplicate_never_succeeds (st : State) (u p : Nat)
    (body : CreateApplicationDTO)
    (h : ∃ a ∈ st.apps, a.pet = p ∧ a.user = u ∧
      (a.status = AppStatus.approved ∨ a.status = AppStatus.rejected)) :
    (createApplication st u p body).2 = st ∧
    (∀ j, (createApplication st u p body).1 ≠ CreateResult.created j) ∧
    (∀ pet, findPet st p = some pet → pet.status = PetStatus.available →
      (createApplication st u p body).1 = CreateResult.alreadyApplied) := by
  obtain ⟨a, ha, hap, hau, -⟩ := h
  cases hfind : st.apps.find? (fun x => decide (x.pet = p ∧ x.user = u)) with
  | none =>
    have hna := List.find?_eq_none.mp hfind a ha
    simp only [decide_eq_true_eq] at hna
    exact absurd ⟨hap, hau⟩ hna
  | some w =>
    have hfind' := hfind
    simp only [Bool.decide_and] at hfind'
    cases hP : findPet st p with
    | none =>
      refine ⟨by simp [createApplication, hP], fun j => by simp [createApplication, hP], ?_⟩
      intro pet hpet
      cases hpet
    | some pet =>
      by_cases hsv : pet.status = PetStatus.available
      · refine ⟨by simp [createApplication, hP, hsv, hfind'],
          fun j => by simp [createApplication, hP, hsv, hfind'], ?_⟩
        intro pet2 hpet2 _
        simp [createApplication, hP, hsv, hfind']
      · refine ⟨by simp [createApplication, hP, hsv],
          fun j => by simp [createApplication, hP, hsv], ?_⟩
        intro pet2 hpet2 hsv2
        injection hpet2 with h2
        exact absurd (h2 ▸ hsv2) hsv

/-- C7 (counterexample): the general pet update operation (`PUT
/pets/:id`) applies its body wholesale, so it can set `status` directly:
updating pet 0 (currently available) with a body containing
`status: adopted` drives the stored status to adopted without going
through the workflow engine or the status-override endpoint. -/
theorem updatePet_sets_status_directly :
    petStatus stOneAvailable 0 = some PetStatus.available ∧
    (updatePet stOneAvailable 0 { status := some PetStatus.adopted }).1 =
      PetOpResult.updated ∧
    petStatus (updatePet stOneAvailable 0 { status := some PetStatus.adopted }).2 0 =
      some PetStatus.adopted := by
  refine ⟨rfl, rfl, rfl⟩

/-- C7 (amended): besides the workflow operations and the status-override
endpoint, the general pet update operation can also mutate `Pet.status`:
it leaves the status unchanged exactly when the request body omits
`status`, and writes any supplied status value (including adopted and
available) when the body contains one. -/
theorem updatePet_status_spec (st : State) (petId : Nat) (body : UpdatePetBody) :
    (body.status = none →
      petStatus (updatePet st petId body).2 petId = petStatus st petId) ∧
    (∀ s pet, body.status = some s → findPet st petId = some pet →
      petStatus (updatePet st petId body).2 petId = some s) := by
  cases hP : findPet st petId with
  | none =>
    constructor
    · intro _
      simp [updatePet, hP]
    · intro s pet hbs hpet
      cases hpet
  | some pet =>
    have hP' : st.pets.find? (fun x => decide (x.id = petId)) = some pet := hP
    have hpid : pet.id = petId := findPet_id hP
    have hst : (updatePet st petId body).2 =
        { st with pets := st.pets.map (fun q => if q.id = petId then applyPetUpdate q body else q) } := by
      simp [updatePet, hP]
    rw [hst]
    have hfind : (st.pets.map
        (fun q => if q.id = petId then applyPetUpdate q body else q)).find?
          (fun x => decide (x.id = petId)) = some (applyPetUpdate pet body) := by
      rw [find?_map_comm]
      · rw [hP', Option.map_some', if_pos hpid]
      · intro x _
        by_cases hx : x.id = petId
        · rw [if_pos hx, applyPetUpdate_id]
        · rw [if_neg hx]
    constructor
    · intro hbs
      simp only [petStatus, findPet]
      rw [hfind, hP']
      simp [applyPetUpdate, hbs]
    · intro s pet2 hbs _
      simp only [petStatus, findPet]
      rw [hfind]
      simp [applyPetUpdate, hbs]

/-! ### Preservation of well-formedness and of the workflow invariant -/

lemma nodup_append_singleton {α : Type} {l : List α} {a : α}
    (h : l.Nodup) (ha : a ∉ l) : (l ++ [a]).Nodup := by
  induction l with
  | nil => simp
  | cons b t ih =>
    rw [List.cons_append, List.nodup_cons]
    rw [List.nodup_cons] at h
    refine ⟨?_, ih h.2 (fun hmem => ha (List.mem_cons_of_mem b hmem))⟩
    intro hmem
    rcases List.mem_append.mp hmem with h1 | h1
    · exact h.1 h1
    · have hba : b = a := List.mem_singleton.mp h1
      exact ha (hba ▸ List.mem_cons_self b t)

lemma length_le_one_of_all_eq {α : Type} {l : List α}
    (hnd : l.Nodup) (h : ∀ x ∈ l, ∀ y ∈ l, x = y) : l.length ≤ 1 := by
  cases l with
  | nil => simp
  | cons a t =>
    cases t with
    | nil => simp
    | cons b u =>
      exfalso
      have hab : a = b := h a (by simp) b (by simp)
      rw [List.nodup_cons] at hnd
      exact hnd.1 (hab ▸ List.mem_cons_self b u)

lemma setPetStatus_ids (pets : List Pet) (pid : Nat) (s : PetStatus) :
    (setPetStatus pets pid s).map Pet.id = pets.map Pet.id := by
  unfold setPetStatus
  apply map_ids_of_preserve
  intro x _
  by_cases h : x.id = pid
  · rw [if_pos h]
  · rw [if_neg h]

lemma savePet_ids (pets : List Pet) (q : Pet) :
    (savePet pets q).map Pet.id = pets.map Pet.id := by
  unfold savePet
  apply map_ids_of_preserve
  intro x _
  by_cases h : x.id = q.id
  · rw [if_pos h, h]
  · rw [if_neg h]

lemma cascade_ids (apps : List Application) (P r t : Nat) :
    (apps.map (cascadeReject P r t)).map Application.id = apps.map Application.id :=
  map_ids_of_preserve _ _ _ (fun x _ => cascadeReject_id P r t x)

lemma id_inj_of_WF {st : State} (h : WF st) {a b : Application}
    (ha : a ∈ st.apps) (hb : b ∈ st.apps) (hid : a.id = b.id) : a = b :=
  List.inj_on_of_nodup_map h.1 ha hb hid

lemma find?_status_setPetStatus_ne {pets : List Pet} {pid : Nat} {s : PetStatus}
    {P : Nat} (hne : P ≠ pid) :
    ((setPetStatus pets pid s).find? (fun x => decide (x.id = P))).map Pet.status =
    (pets.find? (fun x => decide (x.id = P))).map Pet.status := by
  rw [find?_setPetStatus]
  cases hq : pets.find? (fun x => decide (x.id = P)) with
  | none => rfl
  | some q =>
    have hqid : q.id = P := by simpa using List.find?_some hq
    rw [Option.map_some', Option.map_some',
      if_neg (by rw [hqid]; exact hne), Option.map_some']

lemma find?_status_setPetStatus_self {pets : List Pet} {pid : Nat} {s : PetStatus}
    {pet : Pet} (h : pets.find? (fun x => decide (x.id = pid)) = some pet) :
    ((setPetStatus pets pid s).find? (fun x => decide (x.id = pid))).map Pet.status =
      some s := by
  have hid : pet.id = pid := by simpa using List.find?_some h
  rw [find?_setPetStatus, h, Option.map_some', Option.map_some', if_pos hid]

lemma find?_status_savePet_ne {pets : List Pet} {q : Pet} {P : Nat}
    (hne : q.id ≠ P) :
    ((savePet pets q).find? (fun x => decide (x.id = P))).map Pet.status =
    (pets.find? (fun x => decide (x.id = P))).map Pet.status := by
  rw [find?_savePet]
  cases hw : pets.find? (fun x => decide (x.id = P)) with
  | none => rfl
  | some w =>
    have hwid : w.id = P := by simpa using List.find?_some hw
    rw [Option.map_some', Option.map_some',
      if_neg (by rw [hwid]; exact fun hc => hne hc.symm), Option.map_some']

lemma find?_status_savePet_self {pets : List Pet} {q w : Pet}
    (h : pets.find? (fun x => decide (x.id = q.id)) = some w) :
    ((savePet pets q).find? (fun x => decide (x.id = q.id))).map Pet.status =
      some q.status := by
  have hwid : w.id = q.id := by simpa using List.find?_some h
  rw [find?_savePet, h, Option.map_some', Option.map_some', if_pos hwid]

lemma WF_create (st : State) (u p : Nat) (body : CreateApplicationDTO)
    (h : WF st) : WF (createApplication st u p body).2 := by
  rcases createApplication_cases st u p body with heq | ⟨pet, hP, hs, hnone, heq⟩
  · rw [heq]; exact h
  · rw [heq]
    obtain ⟨h1, h2, h3⟩ := h
    refine ⟨?_, ?_, ?_⟩
    · rw [List.map_append]
      apply nodup_append_singleton h1
      intro hmem
      rcases List.mem_map.mp hmem with ⟨a, ha, haid⟩
      have : (newApp st.nextId u p body).id = st.nextId := rfl
      rw [this] at haid
      exact absurd (haid ▸ h2 a ha) (lt_irrefl _)
    · intro a ha
      rcases List.mem_append.mp ha with h | h
      · exact Nat.lt_succ_of_lt (h2 a h)
      · have : a = newApp st.nextId u p body := List.mem_singleton.mp h
        rw [this]
        exact Nat.lt_succ_self _
    · rw [setPetStatus_ids]
      exact h3

lemma WF_review (st : State) (r i : Nat) (d : Decision) (n : Option String)
    (t1 t2 : Nat) (h : WF st) : WF (reviewApplication st r i d n t1 t2).2 := by
  rcases reviewApplication_cases st r i d n t1 t2 with heq | ⟨A, hA, hs, -, hrest⟩
  · rw [heq]; exact h
  obtain ⟨h1, h2, h3⟩ := h
  have hAmem : A ∈ st.apps := findApp_mem hA
  have hsave_nodup : ((saveApp st.apps (stampApp A d n r t1)).map Application.id).Nodup := by
    rw [saveApp_ids]; exact h1
  have hsave_bound : ∀ x ∈ saveApp st.apps (stampApp A d n r t1), x.id < st.nextId := by
    intro x hx
    rcases mem_saveApp_cases hx with rfl | ⟨hxmem, -⟩
    · rw [stampApp_id]
      exact h2 A hAmem
    · exact h2 x hxmem
  rcases hrest with ⟨-, heq⟩ | ⟨pet, hP, hbr⟩
  · rw [heq]
    exact ⟨hsave_nodup, hsave_bound, h3⟩
  rcases hbr with ⟨-, heq⟩ | ⟨-, -, heq⟩ | ⟨-, -, heq⟩ <;> rw [heq]
  · refine ⟨?_, ?_, ?_⟩
    · rw [cascade_ids, saveApp_ids]; exact h1
    · intro x hx
      rcases List.mem_map.mp hx with ⟨y, hy, hyx⟩
      rw [← hyx, cascadeReject_id]
      exact hsave_bound y hy
    · rw [savePet_ids]; exact h3
  · exact ⟨hsave_nodup, hsave_bound, by rw [savePet_ids]; exact h3⟩
  · exact ⟨hsave_nodup, hsave_bound, by rw [savePet_ids]; exact h3⟩

lemma WF_delete (st : State) (req i : Nat) (h : WF st) :
    WF (deleteApplication st req i).2 := by
  rcases deleteApplication_cases st req i with heq | ⟨A, hA, hu, hs, -, hbr⟩
  · rw [heq]; exact h
  obtain ⟨h1, h2, h3⟩ := h
  have hfil_nodup : ((st.apps.filter (fun a => decide (a.id ≠ A.id))).map Application.id).Nodup :=
    h1.sublist (List.Sublist.map _ (List.filter_sublist st.apps))
  have hfil_bound : ∀ x ∈ st.apps.filter (fun a => decide (a.id ≠ A.id)), x.id < st.nextId :=
    fun x hx => h2 x (List.mem_of_mem_filter hx)
  rcases hbr with ⟨-, heq⟩ | ⟨-, heq⟩ <;> rw [heq]
  · exact ⟨hfil_nodup, hfil_bound, by rw [setPetStatus_ids]; exact h3⟩
  · exact ⟨hfil_nodup, hfil_bound, h3⟩

lemma WF_applyOp (st : State) (op : Op) (h : WF st) : WF (applyOp st op) := by
  cases op with
  | create u p body => exact WF_create st u p body h
  | review r a d notes t1 t2 => exact WF_review st r a d notes t1 t2 h
  | delete r a => exact WF_delete st r a h

lemma WF_applyOps (st : State) (ops : List Op) (h : WF st) : WF (applyOps st ops) := by
  induction ops generalizing st with
  | nil => exact h
  | cons op rest ih => exact ih (applyOp st op) (WF_applyOp st op h)

lemma Consistent_create (st : State) (u p : Nat) (body : CreateApplicationDTO)
    (P : Nat) (h : Consistent st P) :
    Consistent (createApplication st u p body).2 P := by
  rcases createApplication_cases st u p body with heq | ⟨pet, hP, hs, hnone, heq⟩
  · rw [heq]; exact h
  obtain ⟨h1, h2, h3, h4, h5⟩ := h
  have hpetid : pet.id = p := findPet_id hP
  have hP' : st.pets.find? (fun x => decide (x.id = p)) = some pet := hP
  have happs : (createApplication st u p body).2.apps =
      st.apps ++ [newApp st.nextId u p body] := by rw [heq]
  by_cases hPp : P = p
  · subst hPp
    have hstat : petStatus (createApplication st u P body).2 P = some PetStatus.pending := by
      rw [heq]
      exact find?_status_setPetStatus_self hP'
    have hold : petStatus st P = some pet.status := by
      show (st.pets.find? (fun x => decide (x.id = P))).map Pet.status = _
      rw [hP', Option.map_some']
    have hnoappr : ∀ a ∈ st.apps, a.pet = P → a.status ≠ AppStatus.approved := by
      intro a ha hap hastat
      have hado := h2 a ha hap hastat
      rw [hold, hs] at hado
      cases hado
    have hnopend : ∀ a ∈ st.apps, a.pet = P → a.status ≠ AppStatus.pending := by
      intro a ha hap hastat
      have hpend := h1.mpr ⟨a, ha, hap, hastat⟩
      rw [hold, hs] at hpend
      cases hpend
    unfold Consistent
    rw [hstat, happs]
    refine ⟨?_, ?_, ?_, ?_, ?_⟩
    · exact ⟨fun _ => ⟨newApp st.nextId u P body, by simp, rfl, rfl⟩, fun _ => rfl⟩
    · intro a ha hap hastat
      rcases List.mem_append.mp ha with ha' | ha'
      · exact absurd hastat (hnoappr a ha' hap)
      · rw [List.mem_singleton.mp ha'] at hastat
        simp [newApp] at hastat
    · intro a ha b hb hap hastat hbp hbstat
      rcases List.mem_append.mp ha with ha' | ha'
      · exact absurd hastat (hnoappr a ha' hap)
      · rw [List.mem_singleton.mp ha'] at hastat
        simp [newApp] at hastat
    · intro a ha b hb hap hastat hbp
      rcases List.mem_append.mp ha with ha' | ha'
      · exact absurd hastat (hnoappr a ha' hap)
      · rw [List.mem_singleton.mp ha'] at hastat
        simp [newApp] at hastat
    · intro hado
      cases hado
  · have hstat : petStatus (createApplication st u p body).2 P = petStatus st P := by
      rw [heq]
      exact find?_status_setPetStatus_ne hPp
    unfold Consistent
    rw [hstat, happs]
    have hnew : (newApp st.nextId u p body).pet = p := rfl
    have hmemP : ∀ a, a ∈ st.apps ++ [newApp st.nextId u p body] → a.pet = P →
        a ∈ st.apps := by
      intro a ha hap
      rcases List.mem_append.mp ha with ha' | ha'
      · exact ha'
      · exfalso
        rw [List.mem_singleton.mp ha'] at hap
        rw [hnew] at hap
        exact hPp hap.symm
    refine ⟨?_, ?_, ?_, ?_, ?_⟩
    · constructor
      · intro hps
        obtain ⟨a, ha, hap, hastat⟩ := h1.mp hps
        exact ⟨a, List.mem_append.mpr (Or.inl ha), hap, hastat⟩
      · rintro ⟨a, ha, hap, hastat⟩
        exact h1.mpr ⟨a, hmemP a ha hap, hap, hastat⟩
    · intro a ha hap hastat
      exact h2 a (hmemP a ha hap) hap hastat
    · intro a ha b hb hap hastat hbp hbstat
      exact h3 a (hmemP a ha hap) b (hmemP b hb hbp) hap hastat hbp hbstat
    · intro a ha b hb hap hastat hbp
      exact h4 a (hmemP a ha hap) b (hmemP b hb hbp) hap hastat hbp
    · intro hado
      obtain ⟨a, ha, hap, hastat⟩ := h5 hado
      exact ⟨a, List.mem_append.mpr (Or.inl ha), hap, hastat⟩

lemma find?_status_savePet_self' {pets : List Pet} {q w : Pet} {P : Nat}
    (hqid : q.id = P)
    (h : pets.find? (fun x => decide (x.id = P)) = some w) :
    ((savePet pets q).find? (fun x => decide (x.id = P))).map Pet.status =
      some q.status := by
  have hwid : w.id = P := by simpa using List.find?_some h
  rw [find?_savePet, h, Option.map_some', Option.map_some',
    if_pos (by rw [hwid, ← hqid])]

lemma Consistent_of_frame {st : State} {P : Nat} (st' : State)
    (hstat : petStatus st' P = petStatus st P)
    (hfwd : ∀ x ∈ st'.apps, x.pet = P → x ∈ st.apps)
    (hbwd : ∀ b ∈ st.apps, b.pet = P → b ∈ st'.apps)
    (h : Consistent st P) : Consistent st' P := by
  obtain ⟨h1, h2, h3, h4, h5⟩ := h
  unfold Consistent
  rw [hstat]
  refine ⟨?_, ?_, ?_, ?_, ?_⟩
  · constructor
    · intro hps
      obtain ⟨a, ha, hap, has⟩ := h1.mp hps
      exact ⟨a, hbwd a ha hap, hap, has⟩
    · rintro ⟨a, ha, hap, has⟩
      exact h1.mpr ⟨a, hfwd a ha hap, hap, has⟩
  · intro a ha hap has
    exact h2 a (hfwd a ha hap) hap has
  · intro a ha b hb hap has hbp hbs
    exact h3 a (hfwd a ha hap) b (hfwd b hb hbp) hap has hbp hbs
  · intro a ha b hb hap has hbp
    exact h4 a (hfwd a ha hap) b (hfwd b hb hbp) hap has hbp
  · intro hado
    obtain ⟨a, ha, hap, has⟩ := h5 hado
    exact ⟨a, hbwd a ha hap, hap, has⟩

lemma Consistent_review (st : State) (r i : Nat) (d : Decision) (n : Option String)
    (t1 t2 : Nat) (P : Nat) (hwf : WF st) (h : Consistent st P) :
    Consistent (reviewApplication st r i d n t1 t2).2 P := by
  rcases reviewApplication_cases st r i d n t1 t2 with heq | ⟨A, hA, hs, -, hrest⟩
  · rw [heq]; exact h
  obtain ⟨h1, h2, h3, h4, h5⟩ := h
  have hAmem : A ∈ st.apps := findApp_mem hA
  have hAid : A.id = i := findApp_id hA
  by_cases hPQ : A.pet = P
  · -- the reviewed application is on pet P
    have hpend0 : petStatus st P = some PetStatus.pending :=
      h1.mpr ⟨A, hAmem, hPQ, hs⟩
    have hnoappr : ∀ b ∈ st.apps, b.pet = P → b.status ≠ AppStatus.approved := by
      intro b hb hbp hbs
      exact h4 b hb A hAmem hbp hbs hPQ hs
    rcases hrest with ⟨hPnone, -⟩ | ⟨pet, hPsome, hbr⟩
    · exfalso
      have hmap : (findPet st P).map Pet.status = some PetStatus.pending := hpend0
      rw [← hPQ, hPnone] at hmap
      cases hmap
    rw [hPQ] at hPsome
    have hpetid : pet.id = P := findPet_id hPsome
    have hpetstat : pet.status = PetStatus.pending := by
      have hmap : (findPet st P).map Pet.status = some PetStatus.pending := hpend0
      rw [hPsome, Option.map_some'] at hmap
      injection hmap
    have hPsome' : st.pets.find? (fun x => decide (x.id = P)) = some pet := hPsome
    rcases hbr with ⟨hd, heq⟩ | ⟨hd, hc0, heq⟩ | ⟨hd, hcne, heq⟩
    · -- approval: pet adopted, all pending siblings rejected
      subst hd
      have happs : (reviewApplication st r i .approved n t1 t2).2.apps =
          (saveApp st.apps (stampApp A .approved n r t1)).map
            (cascadeReject A.pet r t2) := by rw [heq]
      have hstat : petStatus (reviewApplication st r i .approved n t1 t2).2 P =
          some PetStatus.adopted := by
        rw [heq]
        exact find?_status_savePet_self' hpetid hPsome'
      have hnopend : ∀ x ∈ (reviewApplication st r i .approved n t1 t2).2.apps,
          ¬(x.pet = P ∧ x.status = AppStatus.pending) := by
        rw [happs]
        intro x hx
        rcases List.mem_map.mp hx with ⟨y, hy, hyx⟩
        rw [← hyx, ← hPQ]
        exact cascadeReject_not_pending A.pet r t2 y
      have happr : ∀ x ∈ (reviewApplication st r i .approved n t1 t2).2.apps,
          x.pet = P → x.status = AppStatus.approved →
          x = stampApp A .approved n r t1 := by
        rw [happs]
        intro x hx hxp hxs
        rcases List.mem_map.mp hx with ⟨y, hy, hyx⟩
        by_cases hhit : y.pet = A.pet ∧ y.status = AppStatus.pending
        · rw [← hyx, cascadeReject_of_hit hhit] at hxs
          simp at hxs
        · rw [← hyx, cascadeReject_of_not hhit] at hxp hxs ⊢
          rcases mem_saveApp_cases hy with hyeq | ⟨hymem, -⟩
          · exact hyeq
          · exact absurd hxs (hnoappr y hymem hxp)
      have ha1mem : stampApp A .approved n r t1 ∈
          (reviewApplication st r i .approved n t1 t2).2.apps := by
        rw [happs]
        have hmem : stampApp A .approved n r t1 ∈
            saveApp st.apps (stampApp A .approved n r t1) :=
          mem_saveApp_self hAmem rfl
        have hmap := List.mem_map_of_mem (cascadeReject A.pet r t2) hmem
        rwa [cascadeReject_of_not (by rintro ⟨-, hc⟩; simp [stampApp_status, Decision.toStatus] at hc)]
          at hmap
      unfold Consistent
      rw [hstat]
      refine ⟨?_, ?_, ?_, ?_, ?_⟩
      · constructor
        · intro hx
          exact absurd hx (by simp)
        · rintro ⟨a, ha, hap, has⟩
          exact absurd ⟨hap, has⟩ (hnopend a ha)
      · intro a ha hap has
        rfl
      · intro a ha b hb hap has hbp hbs
        rw [happr a ha hap has, happr b hb hbp hbs]
      · intro a ha b hb hap has hbp hbs
        exact (hnopend b hb) ⟨hbp, hbs⟩
      · intro _
        refine ⟨stampApp A .approved n r t1, ha1mem, ?_, rfl⟩
        rw [stampApp_pet]
        exact hPQ
    · -- rejection with no pending sibling left: pet back to available
      subst hd
      have happs : (reviewApplication st r i .rejected n t1 t2).2.apps =
          saveApp st.apps (stampApp A .rejected n r t1) := by rw [heq]
      have hstat : petStatus (reviewApplication st r i .rejected n t1 t2).2 P =
          some PetStatus.available := by
        rw [heq]
        exact find?_status_savePet_self' hpetid hPsome'
      have hnopend : ∀ x ∈ (reviewApplication st r i .rejected n t1 t2).2.apps,
          ¬(x.pet = P ∧ x.status = AppStatus.pending) := by
        rw [happs]
        intro x hx hcon
        exact countPetApps_eq_zero.mp hc0 x hx ⟨hcon.1.trans hPQ.symm, hcon.2⟩
      have hnoappr' : ∀ x ∈ (reviewApplication st r i .rejected n t1 t2).2.apps,
          x.pet = P → x.status ≠ AppStatus.approved := by
        rw [happs]
        intro x hx hxp hxs
        rcases mem_saveApp_cases hx with hxeq | ⟨hxmem, -⟩
        · rw [hxeq] at hxs
          simp [stampApp_status, Decision.toStatus] at hxs
        · exact hnoappr x hxmem hxp hxs
      unfold Consistent
      rw [hstat]
      refine ⟨?_, ?_, ?_, ?_, ?_⟩
      · constructor
        · intro hx
          exact absurd hx (by simp)
        · rintro ⟨a, ha, hap, has⟩
          exact absurd ⟨hap, has⟩ (hnopend a ha)
      · intro a ha hap has
        exact absurd has (hnoappr' a ha hap)
      · intro a ha b hb hap has hbp hbs
        exact absurd has (hnoappr' a ha hap)
      · intro a ha b hb hap has hbp
        exact absurd has (hnoappr' a ha hap)
      · intro hado
        cases hado
    · -- rejection with a pending sibling left: pet stays pending
      subst hd
      have happs : (reviewApplication st r i .rejected n t1 t2).2.apps =
          saveApp st.apps (stampApp A .rejected n r t1) := by rw [heq]
      have hstat : petStatus (reviewApplication st r i .rejected n t1 t2).2 P =
          some PetStatus.pending := by
        rw [heq]
        have hself := find?_status_savePet_self' hpetid hPsome'
        rw [hpetstat] at hself
        exact hself
      have hex : ∃ x ∈ (reviewApplication st r i .rejected n t1 t2).2.apps,
          x.pet = P ∧ x.status = AppStatus.pending := by
        rw [happs]
        have hpos : 0 < countPetApps (saveApp st.apps (stampApp A .rejected n r t1))
            A.pet .pending := Nat.pos_of_ne_zero hcne
        rw [countPetApps] at hpos
        obtain ⟨x, hx, hxp⟩ := List.countP_pos_iff.mp hpos
        simp only [decide_eq_true_eq] at hxp
        exact ⟨x, hx, hPQ ▸ hxp.1, hxp.2⟩
      have hnoappr' : ∀ x ∈ (reviewApplication st r i .rejected n t1 t2).2.apps,
          x.pet = P → x.status ≠ AppStatus.approved := by
        rw [happs]
        intro x hx hxp hxs
        rcases mem_saveApp_cases hx with hxeq | ⟨hxmem, -⟩
        · rw [hxeq] at hxs
          simp [stampApp_status, Decision.toStatus] at hxs
        · exact hnoappr x hxmem hxp hxs
      unfold Consistent
      rw [hstat]
      refine ⟨?_, ?_, ?_, ?_, ?_⟩
      · exact ⟨fun _ => hex, fun _ => rfl⟩
      · intro a ha hap has
        exact absurd has (hnoappr' a ha hap)
      · intro a ha b hb hap has hbp hbs
        exact absurd has (hnoappr' a ha hap)
      · intro a ha b hb hap has hbp
        exact absurd has (hnoappr' a ha hap)
      · intro hado
        cases hado
  · -- the reviewed application is on another pet: everything on P is framed
    have hbackid : ∀ b ∈ st.apps, b.pet = P → b.id ≠ A.id := by
      intro b hb hbp hbid
      have hba := id_inj_of_WF hwf hb hAmem hbid
      rw [hba] at hbp
      exact hPQ hbp
    have hsave_fwd : ∀ x ∈ saveApp st.apps (stampApp A d n r t1), x.pet = P →
        x ∈ st.apps := by
      intro x hx hxp
      rcases mem_saveApp_cases hx with hxeq | ⟨hxmem, -⟩
      · exfalso
        rw [hxeq, stampApp_pet] at hxp
        exact hPQ hxp
      · exact hxmem
    have hsave_bwd : ∀ b ∈ st.apps, b.pet = P →
        b ∈ saveApp st.apps (stampApp A d n r t1) := by
      intro b hb hbp
      exact mem_saveApp_of_ne hb (by rw [stampApp_id]; exact hbackid b hb hbp)
    rcases hrest with ⟨hPnone, heq⟩ | ⟨pet, hPsome, hbr⟩
    · refine Consistent_of_frame _ ?_ ?_ ?_ ⟨h1, h2, h3, h4, h5⟩
      · rw [heq]; rfl
      · rw [heq]; exact hsave_fwd
      · rw [heq]; exact hsave_bwd
    · have hpetid : pet.id = A.pet := findPet_id hPsome
      rcases hbr with ⟨hd, heq⟩ | ⟨hd, hc0, heq⟩ | ⟨hd, hcne, heq⟩
      · subst hd
        refine Consistent_of_frame _ ?_ ?_ ?_ ⟨h1, h2, h3, h4, h5⟩
        · rw [heq]
          exact find?_status_savePet_ne (fun hc => hPQ (hpetid.symm.trans hc))
        · rw [heq]
          intro x hx hxp
          rcases List.mem_map.mp hx with ⟨y, hy, hyx⟩
          by_cases hhit : y.pet = A.pet ∧ y.status = AppStatus.pending
          · exfalso
            rw [← hyx, cascadeReject_of_hit hhit] at hxp
            exact hPQ (hhit.1.symm.trans hxp)
          · rw [← hyx, cascadeReject_of_not hhit] at hxp ⊢
            exact hsave_fwd y hy hxp
        · rw [heq]
          intro b hb hbp
          have hbmem := hsave_bwd b hb hbp
          have hmap := List.mem_map_of_mem (cascadeReject A.pet r t2) hbmem
          rwa [cascadeReject_of_not (by rintro ⟨hc, -⟩; exact hPQ (hc.symm.trans hbp))] at hmap
      · subst hd
        refine Consistent_of_frame _ ?_ ?_ ?_ ⟨h1, h2, h3, h4, h5⟩
        · rw [heq]
          exact find?_status_savePet_ne (fun hc => hPQ (hpetid.symm.trans hc))
        · rw [heq]; exact hsave_fwd
        · rw [heq]; exact hsave_bwd
      · subst hd
        refine Consistent_of_frame _ ?_ ?_ ?_ ⟨h1, h2, h3, h4, h5⟩
        · rw [heq]
          exact find?_status_savePet_ne (fun hc => hPQ (hpetid.symm.trans hc))
        · rw [heq]; exact hsave_fwd
        · rw [heq]; exact hsave_bwd

lemma Consistent_delete (st : State) (req i : Nat) (P : Nat)
    (hwf : WF st) (h : Consistent st P) :
    Consistent (deleteApplication st req i).2 P := by
  rcases deleteApplication_cases st req i with heq | ⟨A, hA, hu, hs, -, hbr⟩
  · rw [heq]; exact h
  obtain ⟨h1, h2, h3, h4, h5⟩ := h
  have hAmem : A ∈ st.apps := findApp_mem hA
  have hfil_fwd : ∀ x ∈ st.apps.filter (fun a => decide (a.id ≠ A.id)), x ∈ st.apps :=
    fun x hx => List.mem_of_mem_filter hx
  by_cases hPQ : A.pet = P
  · -- the deleted application was (pending) on P
    have hpend0 : petStatus st P = some PetStatus.pending :=
      h1.mpr ⟨A, hAmem, hPQ, hs⟩
    have hnoappr : ∀ b ∈ st.apps, b.pet = P → b.status ≠ AppStatus.approved := by
      intro b hb hbp hbs
      exact h4 b hb A hAmem hbp hbs hPQ hs
    have hpet0 : ∃ pet0, st.pets.find? (fun x => decide (x.id = P)) = some pet0 := by
      have hmap : (findPet st P).map Pet.status = some PetStatus.pending := hpend0
      cases hq : findPet st P with
      | none => rw [hq] at hmap; cases hmap
      | some q => exact ⟨q, hq⟩
    obtain ⟨pet0, hpet0f⟩ := hpet0
    have hnoappr' : ∀ x ∈ st.apps.filter (fun a => decide (a.id ≠ A.id)),
        x.pet = P → x.status ≠ AppStatus.approved :=
      fun x hx hxp hxs => hnoappr x (hfil_fwd x hx) hxp hxs
    rcases hbr with ⟨hc0, heq⟩ | ⟨hcne, heq⟩
    · -- no pending application remains: P reverts to available
      have hpet0f' : st.pets.find? (fun x => decide (x.id = A.pet)) = some pet0 := by
        rw [hPQ]; exact hpet0f
      have hstat : petStatus (deleteApplication st req i).2 P =
          some PetStatus.available := by
        rw [heq, ← hPQ]
        exact find?_status_setPetStatus_self hpet0f'
      have hnopend : ∀ x ∈ (deleteApplication st req i).2.apps,
          ¬(x.pet = P ∧ x.status = AppStatus.pending) := by
        rw [heq]
        intro x hx hcon
        exact countPetApps_eq_zero.mp hc0 x hx ⟨hcon.1.trans hPQ.symm, hcon.2⟩
      have happs : (deleteApplication st req i).2.apps =
          st.apps.filter (fun a => decide (a.id ≠ A.id)) := by rw [heq]
      unfold Consistent
      rw [hstat, happs]
      refine ⟨?_, ?_, ?_, ?_, ?_⟩
      · constructor
        · intro hx
          exact absurd hx (by simp)
        · rintro ⟨a, ha, hap, has⟩
          exact absurd ⟨hap, has⟩ (hnopend a (by rw [heq]; exact ha))
      · intro a ha hap has
        exact absurd has (hnoappr' a ha hap)
      · intro a ha b hb hap has hbp hbs
        exact absurd has (hnoappr' a ha hap)
      · intro a ha b hb hap has hbp
        exact absurd has (hnoappr' a ha hap)
      · intro hado
        cases hado
    · -- a pending sibling remains: P stays pending
      have hstat : petStatus (deleteApplication st req i).2 P = petStatus st P := by
        rw [heq]; rfl
      have hex : ∃ x ∈ st.apps.filter (fun a => decide (a.id ≠ A.id)),
          x.pet = P ∧ x.status = AppStatus.pending := by
        have hpos : 0 < countPetApps (st.apps.filter (fun a => decide (a.id ≠ A.id)))
            A.pet .pending := Nat.pos_of_ne_zero hcne
        rw [countPetApps] at hpos
        obtain ⟨x, hx, hxp⟩ := List.countP_pos_iff.mp hpos
        simp only [decide_eq_true_eq] at hxp
        exact ⟨x, hx, hPQ ▸ hxp.1, hxp.2⟩
      have happs : (deleteApplication st req i).2.apps =
          st.apps.filter (fun a => decide (a.id ≠ A.id)) := by rw [heq]
      unfold Consistent
      rw [hstat, happs, hpend0]
      refine ⟨?_, ?_, ?_, ?_, ?_⟩
      · exact ⟨fun _ => hex, fun _ => rfl⟩
      · intro a ha hap has
        exact absurd has (hnoappr' a ha hap)
      · intro a ha b hb hap has hbp hbs
        exact absurd has (hnoappr' a ha hap)
      · intro a ha b hb hap has hbp
        exact absurd has (hnoappr' a ha hap)
      · intro hado
        cases hado
  · -- the deleted application was on another pet
    have hbwd : ∀ b ∈ st.apps, b.pet = P →
        b ∈ st.apps.filter (fun a => decide (a.id ≠ A.id)) := by
      intro b hb hbp
      refine List.mem_filter.mpr ⟨hb, ?_⟩
      simp only [decide_eq_true_eq]
      intro hbid
      have hba := id_inj_of_WF hwf hb hAmem hbid
      rw [hba] at hbp
      exact hPQ hbp
    rcases hbr with ⟨hc0, heq⟩ | ⟨hcne, heq⟩
    · refine Consistent_of_frame _ ?_ ?_ ?_ ⟨h1, h2, h3, h4, h5⟩
      · rw [heq]
        exact find?_status_setPetStatus_ne (fun hc => hPQ hc.symm)
      · rw [heq]
        exact fun x hx _ => hfil_fwd x hx
      · rw [heq]; exact hbwd
    · refine Consistent_of_frame _ ?_ ?_ ?_ ⟨h1, h2, h3, h4, h5⟩
      · rw [heq]; rfl
      · rw [heq]
        exact fun x hx _ => hfil_fwd x hx
      · rw [heq]; exact hbwd

lemma Blocked_create (st : State) (u p : Nat) (body : CreateApplicationDTO)
    (P : Nat) (h : Blocked st P) : Blocked (createApplication st u p body).2 P := by
  rcases createApplication_cases st u p body with heq | ⟨pet, hP, hs, -, heq⟩
  · rw [heq]; exact h
  obtain ⟨ha, hst⟩ := h
  by_cases hpP : p = P
  · exfalso
    subst hpP
    have hP' : st.pets.find? (fun x => decide (x.id = p)) = some pet := hP
    have : petStatus st p = some PetStatus.available := by
      show (st.pets.find? (fun x => decide (x.id = p))).map Pet.status = _
      rw [hP', Option.map_some', hs]
    exact hst this
  · constructor
    · rw [heq]
      intro a hamem
      rcases List.mem_append.mp hamem with h1 | h1
      · exact ha a h1
      · rw [List.mem_singleton.mp h1]
        show p ≠ P
        exact hpP
    · have hframe : petStatus (createApplication st u p body).2 P = petStatus st P := by
        rw [heq]
        exact find?_status_setPetStatus_ne (fun hc => hpP hc.symm)
      rw [hframe]
      exact hst

lemma Blocked_review (st : State) (r i : Nat) (d : Decision) (n : Option String)
    (t1 t2 : Nat) (P : Nat) (h : Blocked st P) :
    Blocked (reviewApplication st r i d n t1 t2).2 P := by
  rcases reviewApplication_cases st r i d n t1 t2 with heq | ⟨A, hA, hs, -, hrest⟩
  · rw [heq]; exact h
  obtain ⟨ha, hst⟩ := h
  have hAmem : A ∈ st.apps := findApp_mem hA
  have hAP : A.pet ≠ P := ha A hAmem
  have hsave : ∀ x ∈ saveApp st.apps (stampApp A d n r t1), x.pet ≠ P := by
    intro x hx
    rcases mem_saveApp_cases hx with hxeq | ⟨hxmem, -⟩
    · rw [hxeq, stampApp_pet]
      exact hAP
    · exact ha x hxmem
  rcases hrest with ⟨hPnone, heq⟩ | ⟨pet, hPsome, hbr⟩
  · constructor
    · rw [heq]; exact hsave
    · rw [heq]; exact hst
  · have hpetid : pet.id = A.pet := findPet_id hPsome
    rcases hbr with ⟨hd, heq⟩ | ⟨hd, hc0, heq⟩ | ⟨hd, hcne, heq⟩
    · subst hd
      constructor
      · rw [heq]
        intro x hx
        rcases List.mem_map.mp hx with ⟨y, hy, hyx⟩
        have hyP := hsave y hy
        rw [← hyx]
        by_cases hhit : y.pet = A.pet ∧ y.status = AppStatus.pending
        · rw [cascadeReject_of_hit hhit]
          exact hyP
        · rw [cascadeReject_of_not hhit]
          exact hyP
      · have hframe : petStatus (reviewApplication st r i .approved n t1 t2).2 P =
            petStatus st P := by
          rw [heq]
          exact find?_status_savePet_ne (fun hc => hAP (hpetid.symm.trans hc))
        rw [hframe]
        exact hst
    · subst hd
      constructor
      · rw [heq]; exact hsave
      · have hframe : petStatus (reviewApplication st r i .rejected n t1 t2).2 P =
            petStatus st P := by
          rw [heq]
          exact find?_status_savePet_ne (fun hc => hAP (hpetid.symm.trans hc))
        rw [hframe]
        exact hst
    · subst hd
      constructor
      · rw [heq]; exact hsave
      · have hframe : petStatus (reviewApplication st r i .rejected n t1 t2).2 P =
            petStatus st P := by
          rw [heq]
          exact find?_status_savePet_ne (fun hc => hAP (hpetid.symm.trans hc))
        rw [hframe]
        exact hst

lemma Blocked_delete (st : State) (req i : Nat) (P : Nat) (h : Blocked st P) :
    Blocked (deleteApplication st req i).2 P := by
  rcases deleteApplication_cases st req i with heq | ⟨A, hA, hu, hs, -, hbr⟩
  · rw [heq]; exact h
  obtain ⟨ha, hst⟩ := h
  have hAmem : A ∈ st.apps := findApp_mem hA
  have hAP : A.pet ≠ P := ha A hAmem
  have hfil : ∀ x ∈ st.apps.filter (fun a => decide (a.id ≠ A.id)), x.pet ≠ P :=
    fun x hx => ha x (List.mem_of_mem_filter hx)
  rcases hbr with ⟨hc0, heq⟩ | ⟨hcne, heq⟩
  · constructor
    · rw [heq]; exact hfil
    · have hframe : petStatus (deleteApplication st req i).2 P = petStatus st P := by
        rw [heq]
        exact find?_status_setPetStatus_ne (fun hc => hAP hc.symm)
      rw [hframe]
      exact hst
  · constructor
    · rw [heq]; exact hfil
    · rw [heq]; exact hst

lemma Consistent_applyOp (st : State) (op : Op) (P : Nat)
    (hwf : WF st) (hc : Consistent st P) : Consistent (applyOp st op) P := by
  cases op with
  | create u p body => exact Consistent_create st u p body P hc
  | review r a d notes u1 u2 => exact Consistent_review st r a d notes u1 u2 P hwf hc
  | delete r a => exact Consistent_delete st r a P hwf hc

lemma Blocked_applyOp (st : State) (op : Op) (P : Nat)
    (hb : Blocked st P) : Blocked (applyOp st op) P := by
  cases op with
  | create u p body => exact Blocked_create st u p body P hb
  | review r a d notes u1 u2 => exact Blocked_review st r a d notes u1 u2 P hb
  | delete r a => exact Blocked_delete st r a P hb

lemma Consistent_applyOps (ops : List Op) (st : State) (P : Nat)
    (hwf : WF st) (hc : Consistent st P) : Consistent (applyOps st ops) P := by
  induction ops generalizing st with
  | nil => exact hc
  | cons op rest ih =>
    exact ih (applyOp st op) (WF_applyOp st op hwf) (Consistent_applyOp st op P hwf hc)

lemma Blocked_applyOps (ops : List Op) (st : State) (P : Nat)
    (hb : Blocked st P) : Blocked (applyOps st ops) P := by
  induction ops generalizing st with
  | nil => exact hb
  | cons op rest ih => exact ih (applyOp st op) (Blocked_applyOp st op P hb)

lemma terminal_mem_create (st : State) (u p : Nat) (body : CreateApplicationDTO)
    {a : Application} (ha : a ∈ st.apps) : a ∈ (createApplication st u p body).2.apps := by
  rcases createApplication_cases st u p body with heq | ⟨-, -, -, -, heq⟩ <;> rw [heq]
  · exact ha
  · exact List.mem_append.mpr (Or.inl ha)

lemma terminal_mem_review (st : State) (r i : Nat) (d : Decision) (n : Option String)
    (t1 t2 : Nat) {a : Application} (hwf : WF st) (ha : a ∈ st.apps)
    (hterm : a.status ≠ AppStatus.pending) :
    a ∈ (reviewApplication st r i d n t1 t2).2.apps := by
  rcases reviewApplication_cases st r i d n t1 t2 with heq | ⟨A, hA, hs, -, hrest⟩
  · rw [heq]; exact ha
  have hAmem : A ∈ st.apps := findApp_mem hA
  have haid : a.id ≠ A.id := by
    intro hid
    apply hterm
    rw [id_inj_of_WF hwf ha hAmem hid]
    exact hs
  have hsave : a ∈ saveApp st.apps (stampApp A d n r t1) :=
    mem_saveApp_of_ne ha (by rw [stampApp_id]; exact haid)
  rcases hrest with ⟨-, heq⟩ | ⟨pet, -, hbr⟩
  · rw [heq]; exact hsave
  rcases hbr with ⟨-, heq⟩ | ⟨-, -, heq⟩ | ⟨-, -, heq⟩ <;> rw [heq]
  · have hmap := List.mem_map_of_mem (cascadeReject A.pet r t2) hsave
    rwa [cascadeReject_of_not (fun hc => hterm hc.2)] at hmap
  · exact hsave
  · exact hsave

lemma terminal_mem_delete (st : State) (req i : Nat) {a : Application}
    (hwf : WF st) (ha : a ∈ st.apps) (hterm : a.status ≠ AppStatus.pending) :
    a ∈ (deleteApplication st req i).2.apps := by
  rcases deleteApplication_cases st req i with heq | ⟨A, hA, hu, hs, -, hbr⟩
  · rw [heq]; exact ha
  have hAmem : A ∈ st.apps := findApp_mem hA
  have haid : a.id ≠ A.id := by
    intro hid
    apply hterm
    rw [id_inj_of_WF hwf ha hAmem hid]
    exact hs
  have hfil : a ∈ st.apps.filter (fun x => decide (x.id ≠ A.id)) :=
    List.mem_filter.mpr ⟨ha, by simpa using haid⟩
  rcases hbr with ⟨-, heq⟩ | ⟨-, heq⟩ <;> rw [heq] <;> exact hfil

lemma terminal_mem_applyOp (st : State) (op : Op) {a : Application}
    (hwf : WF st) (ha : a ∈ st.apps) (hterm : a.status ≠ AppStatus.pending) :
    a ∈ (applyOp st op).apps := by
  cases op with
  | create u p body => exact terminal_mem_create st u p body ha
  | review r i d notes u1 u2 => exact terminal_mem_review st r i d notes u1 u2 hwf ha hterm
  | delete r i => exact terminal_mem_delete st r i hwf ha hterm

lemma terminal_mem_applyOps (st : State) (ops : List Op) {a : Application}
    (hwf : WF st) (ha : a ∈ st.apps) (hterm : a.status ≠ AppStatus.pending) :
    a ∈ (applyOps st ops).apps := by
  induction ops generalizing st with
  | nil => exact ha
  | cons op rest ih =>
    exact ih (applyOp st op) (WF_applyOp st op hwf)
      (terminal_mem_applyOp st op hwf ha hterm)

/-- C9: once an application is terminal (approved or rejected), no
sequence of workflow operations (createApplication, review with its
approval cascade, deleteApplication) ever changes or removes it: looking
it up by id after any sequence still returns the identical document, with
the same status, reviewer identity, and review timestamp. -/
theorem reviewed_application_immutable (st : State) (ops : List Op) (a : Application)
    (hwf : WF st) (ha : a ∈ st.apps) (hterm : a.status ≠ AppStatus.pending) :
    findApp (applyOps st ops) a.id = some a := by
  have hmem : a ∈ (applyOps st ops).apps := terminal_mem_applyOps st ops hwf ha hterm
  have hwf' := WF_applyOps st ops hwf
  exact find?_self_of_nodup Application.id _ hwf'.1 hmem

/-- C1: starting from a well-formed state with no application on pet `P`,
after any sequence of workflow operations at most one application on `P`
has status approved: approval adopts the pet and rejects all pending
siblings, creation refuses non-available pets, and review refuses
non-pending applications, so a second approval is unreachable. -/
theorem at_most_one_approved_per_pet (ops : List Op) (st : State) (P : Nat)
    (hwf : WF st) (hstart : ∀ a ∈ st.apps, a.pet ≠ P) :
    ((applyOps st ops).apps.filter
      (fun a => decide (a.pet = P ∧ a.status = AppStatus.approved))).length ≤ 1 := by
  have hinit : Consistent st P ∨ Blocked st P := by
    by_cases hav : petStatus st P = some PetStatus.available
    · left
      refine ⟨?_, ?_, ?_, ?_, ?_⟩
      · constructor
        · intro hc
          rw [hav] at hc
          cases hc
        · rintro ⟨a, ha, hap, -⟩
          exact absurd hap (hstart a ha)
      · intro a ha hap _
        exact absurd hap (hstart a ha)
      · intro a ha b hb hap _ _ _
        exact absurd hap (hstart a ha)
      · intro a ha b hb hap _ _
        exact absurd hap (hstart a ha)
      · intro hado
        rw [hav] at hado
        cases hado
    · right
      exact ⟨hstart, hav⟩
  have hwf' := WF_applyOps st ops hwf
  rcases hinit with hc | hb
  · obtain ⟨-, -, h3, -, -⟩ := Consistent_applyOps ops st P hwf hc
    have hnodup : (applyOps st ops).apps.Nodup := List.Nodup.of_map _ hwf'.1
    apply length_le_one_of_all_eq (hnodup.filter _)
    intro x hx y hy
    have hx' := List.mem_filter.mp hx
    have hy' := List.mem_filter.mp hy
    simp only [decide_eq_true_eq] at hx' hy'
    exact h3 x hx'.1 y hy'.1 hx'.2.1 hx'.2.2 hy'.2.1 hy'.2.2
  · have hb' := Blocked_applyOps ops st P hb
    have hnil : (applyOps st ops).apps.filter
        (fun a => decide (a.pet = P ∧ a.status = AppStatus.approved)) = [] := by
      rw [List.filter_eq_nil_iff]
      intro a ha
      simp only [decide_eq_true_eq]
      rintro ⟨hap, -⟩
      exact hb'.1 a ha hap
    rw [hnil]
    simp

/-- C2: starting from a well-formed state satisfying the workflow
consistency invariant for pet `P`, after any sequence of workflow
operations: unless `P` is adopted, its status is pending exactly when
some application on it is pending; and when `P` is adopted, exactly one
application on it is approved and zero are pending. -/
theorem pet_status_consistency (ops : List Op) (st : State) (P : Nat)
    (hwf : WF st) (hcons : Consistent st P) :
    (petStatus (applyOps st ops) P ≠ some PetStatus.adopted →
      (petStatus (applyOps st ops) P = some PetStatus.pending ↔
        ∃ a ∈ (applyOps st ops).apps, a.pet = P ∧ a.status = AppStatus.pending)) ∧
    (petStatus (applyOps st ops) P = some PetStatus.adopted →
      ((applyOps st ops).apps.filter
        (fun a => decide (a.pet = P ∧ a.status = AppStatus.approved))).length = 1 ∧
      ((applyOps st ops).apps.filter
        (fun a => decide (a.pet = P ∧ a.status = AppStatus.pending))).length = 0) := by
  have hwf' := WF_applyOps st ops hwf
  obtain ⟨h1, h2, h3, h4, h5⟩ := Consistent_applyOps ops st P hwf hcons
  constructor
  · intro _
    exact h1
  · intro hado
    obtain ⟨a0, ha0, hap0, has0⟩ := h5 hado
    constructor
    · apply Nat.le_antisymm
      · have hnodup : (applyOps st ops).apps.Nodup := List.Nodup.of_map _ hwf'.1
        apply length_le_one_of_all_eq (hnodup.filter _)
        intro x hx y hy
        have hx' := List.mem_filter.mp hx
        have hy' := List.mem_filter.mp hy
        simp only [decide_eq_true_eq] at hx' hy'
        exact h3 x hx'.1 y hy'.1 hx'.2.1 hx'.2.2 hy'.2.1 hy'.2.2
      · have hmem : a0 ∈ (applyOps st ops).apps.filter
            (fun a => decide (a.pet = P ∧ a.status = AppStatus.approved)) :=
          List.mem_filter.mpr ⟨ha0, by simp [hap0, has0]⟩
        exact List.length_pos_of_mem hmem
    · have hnil : (applyOps st ops).apps.filter
          (fun a => decide (a.pet = P ∧ a.status = AppStatus.pending)) = [] := by
        rw [List.filter_eq_nil_iff]
        intro b hb
        simp only [decide_eq_true_eq]
        rintro ⟨hbp, hbs⟩
        exact h4 a0 ha0 b hb hap0 has0 hbp hbs
      rw [hnil]
      rfl

/-! ### Witnesses: the claim theorems instantiated on concrete stores -/

/-- Witness for C5 on concrete stores: all four branches fire. -/
theorem createApplication_precondition_order_witness :
    createApplication stOneAvailable 1 5 mkDTO = (.petNotFound, stOneAvailable) ∧
    createApplication stOnePending 2 0 mkDTO = (.notAvailable, stOnePending) ∧
    createApplication stAvailRejected 1 0 mkDTO = (.alreadyApplied, stAvailRejected) ∧
    ((createApplication stOneAvailable 1 0 mkDTO).1 = .created stOneAvailable.nextId ∧
      newApp stOneAvailable.nextId 1 0 mkDTO ∈ (createApplication stOneAvailable 1 0 mkDTO).2.apps ∧
      (newApp stOneAvailable.nextId 1 0 mkDTO).status = AppStatus.pending ∧
      petStatus (createApplication stOneAvailable 1 0 mkDTO).2 0 = some PetStatus.pending) :=
  ⟨(createApplication_precondition_order stOneAvailable 1 5 mkDTO).1 rfl,
   (createApplication_precondition_order stOnePending 2 0 mkDTO).2.1
     (mkPet 0 .pending) rfl (by decide),
   (createApplication_precondition_order stAvailRejected 1 0 mkDTO).2.2.1
     (mkPet 0 .available) rfl rfl ⟨mkApp 0 0 1 .rejected, by decide, rfl, rfl⟩,
   (createApplication_precondition_order stOneAvailable 1 0 mkDTO).2.2.2
     (mkPet 0 .available) rfl rfl (by decide)⟩

/-- Witness for C8 on concrete stores: all four branches fire; in the
success branch the pet reverts to available. -/
theorem deleteApplication_precondition_order_witness :
    deleteApplication stOneAvailable 1 7 = (.appNotFound, stOneAvailable) ∧
    deleteApplication stOnePending 2 0 = (.notOwner, stOnePending) ∧
    deleteApplication stAdoptedApproved 1 0 = (.alreadyReviewed, stAdoptedApproved) ∧
    (deleteApplication stOnePending 1 0).1 = DeleteAppResult.deleted ∧
    petStatus (deleteApplication stOnePending 1 0).2 0 =
      (petStatus stOnePending 0).map (fun _ => PetStatus.available) :=
  ⟨(deleteApplication_precondition_order stOneAvailable 1 7).1 rfl,
   (deleteApplication_precondition_order stOnePending 2 0).2.1
     (mkApp 0 0 1 .pending) rfl (by decide),
   (deleteApplication_precondition_order stAdoptedApproved 1 0).2.2.1
     (mkApp 0 0 1 .approved) rfl rfl (by decide),
   ((deleteApplication_precondition_order stOnePending 1 0).2.2.2
     (mkApp 0 0 1 .pending) rfl rfl rfl).1,
   ((deleteApplication_precondition_order stOnePending 1 0).2.2.2
     (mkApp 0 0 1 .pending) rfl rfl rfl).2.2.1 (by decide)⟩

/-- Witness for C10: after deleting the pet out from under its pending
application, the review still succeeds and stamps the application. -/
theorem reviewApplication_missing_pet_witness :
    (reviewApplication (deletePet stOnePending 0).2 9 0 .approved none 7 8).1 =
      ReviewResult.reviewed ∧
    (reviewApplication (deletePet stOnePending 0).2 9 0 .approved none 7 8).2.pets =
      (deletePet stOnePending 0).2.pets ∧
    findApp (reviewApplication (deletePet stOnePending 0).2 9 0 .approved none 7 8).2 0 =
      some (stampApp (mkApp 0 0 1 AppStatus.pending) .approved none 9 7) := by
  have h := reviewApplication_missing_pet (deletePet stOnePending 0).2 9 0 .approved none 7 8
    (mkApp 0 0 1 AppStatus.pending) rfl rfl rfl
  exact ⟨h.1, h.2.1, h.2.2.1⟩

/-- Witness for C4: rejecting the only pending application reverts the
pet to available. -/
theorem reviewApplication_reject_spec_witness :
    (reviewApplication stOnePending 9 0 .rejected (some "no") 3 4).1 =
      ReviewResult.reviewed ∧
    findApp (reviewApplication stOnePending 9 0 .rejected (some "no") 3 4).2 0 =
      some (stampApp (mkApp 0 0 1 AppStatus.pending) .rejected (some "no") 9 3) ∧
    petStatus (reviewApplication stOnePending 9 0 .rejected (some "no") 3 4).2 0 =
      some PetStatus.available := by
  have h := reviewApplication_reject_spec stOnePending 9 0 (some "no") 3 4
    (mkApp 0 0 1 AppStatus.pending) (mkPet 0 PetStatus.pending) rfl rfl rfl rfl
  exact ⟨h.1, h.2.1, h.2.2.1 (by decide)⟩

/-- Witness for C3 (amended): approving one of two pending applications
adopts the pet, stamps the approved application with the first clock
read, and cascades rejection onto the sibling with the second clock
read. -/
theorem reviewApplication_approve_spec_witness :
    (reviewApplication stTwoPending 9 0 .approved (some "ok") 5 6).1 =
      ReviewResult.reviewed ∧
    findApp (reviewApplication stTwoPending 9 0 .approved (some "ok") 5 6).2 0 =
      some (stampApp (mkApp 0 0 1 AppStatus.pending) .approved (some "ok") 9 5) ∧
    petStatus (reviewApplication stTwoPending 9 0 .approved (some "ok") 5 6).2 0 =
      some PetStatus.adopted ∧
    { mkApp 1 0 2 AppStatus.pending with status := AppStatus.rejected, adminNotes := some "Pet has been adopted by another applicant", reviewedBy := some 9, reviewedAt := some 6 } ∈
      (reviewApplication stTwoPending 9 0 .approved (some "ok") 5 6).2.apps := by
  have h := reviewApplication_approve_spec stTwoPending 9 0 (some "ok") 5 6
    (mkApp 0 0 1 AppStatus.pending) (mkPet 0 PetStatus.pending) rfl rfl rfl
  exact ⟨h.1, h.2.1, h.2.2.1,
    h.2.2.2.1 (mkApp 1 0 2 AppStatus.pending) (by decide) (by decide) rfl rfl⟩

/-- Witness for C6 (amended): re-applying after a rejected application on
an available pet fails with the already-applied conflict and leaves the
store unchanged. -/
theorem createApplication_duplicate_never_succeeds_witness :
    (createApplication stAvailRejected 1 0 mkDTO).2 = stAvailRejected ∧
    (createApplication stAvailRejected 1 0 mkDTO).1 = CreateResult.alreadyApplied := by
  have h := createApplication_duplicate_never_succeeds stAvailRejected 1 0 mkDTO
    ⟨mkApp 0 0 1 .rejected, by decide, rfl, rfl, Or.inr rfl⟩
  exact ⟨h.1, h.2.2 (mkPet 0 .available) rfl rfl⟩

/-- Witness for C7 (amended): an update body without `status` leaves the
status unchanged; one with `status: pending` writes it. -/
theorem updatePet_status_spec_witness :
    petStatus (updatePet stOneAvailable 0 {}).2 0 = petStatus stOneAvailable 0 ∧
    petStatus (updatePet stOneAvailable 0 { status := some PetStatus.pending }).2 0 =
      some PetStatus.pending :=
  ⟨(updatePet_status_spec stOneAvailable 0 {}).1 rfl,
   (updatePet_status_spec stOneAvailable 0 { status := some PetStatus.pending }).2
     PetStatus.pending (mkPet 0 .available) rfl rfl⟩

/-- Witness for C9: the approved application survives a deletion attempt
and a re-review attempt untouched. -/
theorem reviewed_application_immutable_witness :
    findApp (applyOps stAdoptedApproved
      [Op.delete 1 0, Op.review 9 0 .approved none 1 2]) 0 =
      some (mkApp 0 0 1 AppStatus.approved) :=
  reviewed_application_immutable stAdoptedApproved
    [Op.delete 1 0, Op.review 9 0 .approved none 1 2]
    (mkApp 0 0 1 AppStatus.approved) (by unfold WF; decide) (by decide) (by decide)

/-- Witness for C1: create-then-approve on a fresh pet yields at most one
approved application. -/
theorem at_most_one_approved_per_pet_witness :
    ((applyOps stOneAvailable
      [Op.create 1 0 mkDTO, Op.review 9 0 .approved none 1 2]).apps.filter
      (fun a => decide (a.pet = 0 ∧ a.status = AppStatus.approved))).length ≤ 1 :=
  at_most_one_approved_per_pet
    [Op.create 1 0 mkDTO, Op.review 9 0 .approved none 1 2]
    stOneAvailable 0 (by unfold WF; decide) (by decide)

/-- Witness for C2: after create-then-approve the pet is adopted with
exactly one approved and zero pending applications. -/
theorem pet_status_consistency_witness :
    ((applyOps stOneAvailable
      [Op.create 1 0 mkDTO, Op.review 9 0 .approved none 1 2]).apps.filter
      (fun a => decide (a.pet = 0 ∧ a.status = AppStatus.approved))).length = 1 ∧
    ((applyOps stOneAvailable
      [Op.create 1 0 mkDTO, Op.review 9 0 .approved none 1 2]).apps.filter
      (fun a => decide (a.pet = 0 ∧ a.status = AppStatus.pending))).length = 0 :=
  (pet_status_consistency
    [Op.create 1 0 mkDTO, Op.review 9 0 .approved none 1 2]
    stOneAvailable 0 (by unfold WF; decide) (by unfold Consistent; decide)).2 (by decide)

end PetAdoption
